import Mathlib

/-!
# IPv4 black/white list trie of `middleware/black.go`

A shallow embedding of the binary trie of `src/middleware/black.go`
(`blackNode` with `Insert`, `Delete`, `Look`, `List`), of the address codec
(`ip2intbit`, `ip2int`, `int2ip`) and of the admission handler
(`black.HandleHTTP`), followed by theorems about them.

Conventions of the embedding.

* Go `uint64` / `uint` values are natural numbers; every operation that can
  leave the 64-bit range is written with an explicit reduction modulo `2^64`.
* A nullable `*blackNode` field is an `Option blackNode`; the receiver of a
  method is a non-nil node.
* A method that mutates the tree in place returns the updated node.
* A Go `string` is a `String`, processed as its list of characters.  The two
  separators the code looks for (`.` and `/`) are ASCII, so cutting at them is
  the same on bytes and on characters.
* A run-time panic (index out of range in `ip2int`) is the result `none`.
-/

/-! ## Machine arithmetic -/

/-- Subtraction of `uint64` values: `a - b` wraps modulo `2^64`. -/
def subU (a b : Nat) : Nat := if b ≤ a then a - b else 2 ^ 64 - (b - a)

/-- The statement `n--` on a `uint` or `uint64`. -/
def decU (n : Nat) : Nat := subU n 1

/-- The statement `n++` on a `uint64`. -/
def incU (n : Nat) : Nat := (n + 1) % 2 ^ 64

/-- Go `a << k` on `uint64`: bits shifted out are lost, a count of 64 or more
gives 0. -/
def shlU (a k : Nat) : Nat := if 64 ≤ k then 0 else (a <<< k) % 2 ^ 64

/-- Go `a >> k` on `uint64`: a count of 64 or more gives 0. -/
def shrU (a k : Nat) : Nat := if 64 ≤ k then 0 else a >>> k

/-- Conversion `uint64(x)` (and `uint(x)`) of a Go `int`. -/
def toU64 (x : Int) : Nat := (x % 2 ^ 64).toNat

/-! ## Data model -/

/-- A trie node, `blackNode` of black.go:125-130. -/
inductive blackNode where
  | mk (Left : Option blackNode) (Right : Option blackNode) (Data : Bool) (Count : Nat)

/-- Field `Left`. -/
def blackNode.Left : blackNode → Option blackNode
  | .mk l _ _ _ => l

/-- Field `Right`. -/
def blackNode.Right : blackNode → Option blackNode
  | .mk _ r _ _ => r

/-- Field `Data`: the node ends a rule. -/
def blackNode.Data : blackNode → Bool
  | .mk _ _ d _ => d

/-- Field `Count`: the hit counter. -/
def blackNode.Count : blackNode → Nat
  | .mk _ _ _ c => c

/-- The value `new(blackNode)`, also `blackNode{}`: no children, not terminal,
counter 0. -/
def blackNode.new : blackNode := .mk none none false 0

/-- A listed rule, `blackInfo` of black.go:133-137. -/
structure blackInfo where
  Addr : String
  Mask : Nat
  Count : Nat
deriving DecidableEq, Repr

/-- The two lists, `black` of black.go:24-27. -/
structure black where
  White : blackNode
  Black : blackNode

/-- Go `newBlack` (black.go:30-35). -/
def newBlack : black := ⟨blackNode.new, blackNode.new⟩

/-! ## Address codec -/

/-- Value of a string of decimal digits. -/
def digitsVal (ds : List Char) : Nat :=
  ds.foldl (fun n c => n * 10 + (c.toNat - 48)) 0

/-- The leading sign `strconv.ParseInt` picks off: whether it is `-`, and the
rest of the text. -/
def splitSign : List Char → Bool × List Char
  | [] => (false, [])
  | c :: cs =>
    if c = '-' then (true, cs)
    else if c = '+' then (false, cs)
    else (false, c :: cs)

/-- The digit loop of `strconv.ParseUint(s, 10, 64)` with `n` accumulated so
far, reading left to right: `none` is the syntax error at the first character
that is not an ASCII digit; at the first digit that would take the number out
of `uint64` the loop stops with the range error and the value `2^64 - 1`,
without looking at the rest. -/
def parseUintLoop : Nat → List Char → Option Nat
  | n, [] => some n
  | n, c :: cs =>
    if !c.isDigit then none
    else if 1844674407370955162 ≤ n then some (2 ^ 64 - 1)
    else if 2 ^ 64 ≤ n * 10 + (c.toNat - 48) then some (2 ^ 64 - 1)
    else parseUintLoop (n * 10 + (c.toNat - 48)) cs

/-- Go `strconv.Atoi` with its error dropped (`v, _ := strconv.Atoi(s)`), on a
64-bit platform.  The empty text, a lone sign and a syntax error give 0; a
number is clamped to the `int64` range, also when the range error comes before
a character that is not a digit.  The fast path for texts shorter than 19
bytes returns the same values. -/
def Atoi (s : List Char) : Int :=
  let sd := splitSign s
  if sd.2.isEmpty then 0
  else
    match parseUintLoop 0 sd.2 with
    | none => 0
    | some un =>
      if sd.1 then (if 2 ^ 63 < un then -(2 ^ 63 : Int) else -(un : Int))
      else (if 2 ^ 63 ≤ un then (2 ^ 63 - 1 : Int) else (un : Int))

/-- Go `strings.Split(s, sep)` for a separator of one character. -/
def Split (sep : Char) : List Char → List (List Char)
  | [] => [[]]
  | c :: cs =>
    if c = sep then [] :: Split sep cs
    else
      match Split sep cs with
      | [] => [[c]]
      | w :: ws => (c :: w) :: ws

/-- For `pos := strings.Index(ip, "/")`: `none` when `pos == -1`, otherwise the
two slices `(ip[:pos], ip[pos+1:])`. -/
def cutSlash : List Char → Option (List Char × List Char)
  | [] => none
  | c :: cs =>
    if c = '/' then some ([], cs)
    else (cutSlash cs).map (fun p => (c :: p.1, p.2))

/-- Go `ip2int` (black.go:249-262).  `none` is the index-out-of-range panic
of `bits[1]`, `bits[2]` or `bits[3]` when there are fewer than four fields. -/
def ip2int (ip : String) : Option Nat :=
  match Split '.' ip.toList with
  | s0 :: s1 :: s2 :: s3 :: _ =>
    let b0 := Atoi s0
    let b1 := Atoi s1
    let b2 := Atoi s2
    let b3 := Atoi s3
    let sum := 0
    let sum := (sum + shlU (toU64 b0) 24) % 2 ^ 64
    let sum := (sum + shlU (toU64 b1) 16) % 2 ^ 64
    let sum := (sum + shlU (toU64 b2) 8) % 2 ^ 64
    let sum := (sum + toU64 b3) % 2 ^ 64
    some sum
  | _ => none

/-- Go `ip2intbit` (black.go:239-247): the address and the prefix length, 32
when there is no `/`. -/
def ip2intbit (ip : String) : Option (Nat × Nat) :=
  match cutSlash ip.toList with
  | none => (ip2int ip).map (fun v => (v, 32))
  | some (addr, suffix) => (ip2int (String.mk addr)).map (fun v => (v, toU64 (Atoi suffix)))

/-- Go `int2ip` (black.go:264-271); `%d` of a `uint64` is its decimal form. -/
def int2ip (ip : Nat) : String :=
  let bytes0 := ip &&& 0xFF
  let bytes1 := (shrU ip 8) &&& 0xFF
  let bytes2 := (shrU ip 16) &&& 0xFF
  let bytes3 := (shrU ip 24) &&& 0xFF
  Nat.repr bytes3 ++ "." ++ Nat.repr bytes2 ++ "." ++ Nat.repr bytes1 ++ "." ++ Nat.repr bytes0

/-! ## Trie operations -/

/-- The loop and last statement of `Insert` (black.go:142-156), on the node
the variable `node` points to; the result is that node after the updates. -/
def blackNode.InsertLoop (val : Nat) : (bit : Nat) → (num : Nat) → blackNode → blackNode
  | 0, _, .mk l r _ c => .mk l r true c
  | bit + 1, num, .mk l r d c =>
    if shrU val num &&& 1 = 0 then
      .mk (some (InsertLoop val bit (decU num) (l.getD blackNode.new))) r d c
    else
      .mk l (some (InsertLoop val bit (decU num) (r.getD blackNode.new))) d c

/-- The body of `Insert` after `ip2intbit` (black.go:142-156). -/
def blackNode.InsertRule (node : blackNode) (val bit : Nat) : blackNode :=
  blackNode.InsertLoop val bit 31 node

/-- Go `Insert` (black.go:140-157). -/
def blackNode.Insert (node : blackNode) (ip : String) : Option blackNode :=
  (ip2intbit ip).map (fun vb => node.InsertRule vb.1 vb.2)

/-- The loop and the final cut of `Delete` (black.go:165-195).

`node` is the node the Go variable `node` points to and `ctx` rebuilds the
whole tree from a replacement of that node.  The pointer `lastnode` is kept as
`last`: `none` for nil, otherwise the rebuilding function of the recorded node
together with the node itself.  The result is the tree under `rootnode` when
the function returns. -/
def blackNode.DeleteLoop (rootnode : blackNode) (val : Nat) :
    (bit : Nat) → (num : Nat) → (node : blackNode) → (ctx : blackNode → blackNode) →
    (last : Option ((blackNode → blackNode) × blackNode)) → (lastflag : Bool) → blackNode
  | 0, _, _, _, last, lastflag =>
    match last with
    | some (k, .mk l r d c) =>
      if lastflag then k (.mk none r d c) else k (.mk l none d c)
    | none => blackNode.new
  | bit + 1, num, .mk l r d c, ctx, last, lastflag =>
    if shrU val num &&& 1 = 0 then
      match l with
      | none => rootnode
      | some l' =>
        if r.isSome || d then
          DeleteLoop rootnode val bit (decU num) l' (fun x => ctx (.mk (some x) r d c))
            (some (ctx, .mk l r d c)) true
        else
          DeleteLoop rootnode val bit (decU num) l' (fun x => ctx (.mk (some x) r d c))
            last lastflag
    else
      match r with
      | none => rootnode
      | some r' =>
        if l.isSome then
          DeleteLoop rootnode val bit (decU num) r' (fun x => ctx (.mk l (some x) d c))
            (some (ctx, .mk l r d c)) false
        else
          DeleteLoop rootnode val bit (decU num) r' (fun x => ctx (.mk l (some x) d c))
            last lastflag

/-- The body of `Delete` after `ip2intbit` (black.go:161-195). -/
def blackNode.DeleteRule (node : blackNode) (val bit : Nat) : blackNode :=
  blackNode.DeleteLoop node val bit 31 node id none false

/-- Go `Delete` (black.go:160-196). -/
def blackNode.Delete (node : blackNode) (ip : String) : Option blackNode :=
  (ip2intbit ip).map (fun vb => node.DeleteRule vb.1 vb.2)

/-- The loop of `Look` (black.go:200-218) with `num` iterations left: the
updated node and the returned boolean.  The pattern `num + 1` is the Go `num`,
so the tested bit `ip>>(num-1)&1` is bit `num` of the pattern. -/
def blackNode.LookLoop (ip : Nat) : (num : Nat) → blackNode → blackNode × Bool
  | 0, .mk l r d c => (.mk l r d (incU c), true)
  | num + 1, .mk l r d c =>
    if d then (.mk l r d (incU c), true)
    else if shrU ip num &&& 1 = 0 then
      match l with
      | none => (.mk l r d c, false)
      | some l' => ((.mk (some (LookLoop ip num l').1) r d c), (LookLoop ip num l').2)
    else
      match r with
      | none => (.mk l r d c, false)
      | some r' => ((.mk l (some (LookLoop ip num r').1) d c), (LookLoop ip num r').2)

/-- Go `Look` (black.go:199-219). -/
def blackNode.Look (node : blackNode) (ip : Nat) : blackNode × Bool :=
  blackNode.LookLoop ip 32 node

/-- Go `List` (black.go:222-237). -/
def blackNode.List : blackNode → List blackInfo → Nat → Nat → List blackInfo
  | .mk l r d c, data, pre, bit =>
    let data := if d then data ++ [⟨int2ip (shlU pre bit), subU 32 bit, c⟩] else data
    let data :=
      match l with
      | none => data
      | some l' => blackNode.List l' data (shlU pre 1) (decU bit)
    match r with
    | none => data
    | some r' => blackNode.List r' data (shlU pre 1 ||| 1) (decU bit)

/-! ## Admission handler -/

/-- The three ways `HandleHTTP` ends: the `return` after the white list
matched, the 403 response after the black list matched, and falling off the
end. -/
inductive Decision where
  | Allow
  | Deny (status : Nat)
  | Unspecified
deriving DecidableEq, Repr

/-- The body of `HandleHTTP` after `ip := ip2int(ctx.RealIP())`
(black.go:94-101): the lists after the lookups and the way the handler ends. -/
def black.check (b : black) (ip : Nat) : black × Decision :=
  let w := b.White.Look ip
  if w.2 then (⟨w.1, b.Black⟩, Decision.Allow)
  else
    let k := b.Black.Look ip
    if k.2 then (⟨w.1, k.1⟩, Decision.Deny 403)
    else (⟨w.1, k.1⟩, Decision.Unspecified)

/-- Go `HandleHTTP` (black.go:92-102) for a request whose `ctx.RealIP()` is
`realIP`. -/
def black.HandleHTTP (b : black) (realIP : String) : Option (black × Decision) :=
  (ip2int realIP).map (fun ip => b.check ip)

/-- Go `InsertWhite` (black.go:105-107). -/
def black.InsertWhite (b : black) (ip : String) : Option black :=
  (b.White.Insert ip).map (fun w => ⟨w, b.Black⟩)

/-- Go `InsertBlack` (black.go:110-112). -/
def black.InsertBlack (b : black) (ip : String) : Option black :=
  (b.Black.Insert ip).map (fun k => ⟨b.White, k⟩)

/-- Go `DeleteWhite` (black.go:115-117). -/
def black.DeleteWhite (b : black) (ip : String) : Option black :=
  (b.White.Delete ip).map (fun w => ⟨w, b.Black⟩)

/-- Go `DeleteBlack` (black.go:120-122). -/
def black.DeleteBlack (b : black) (ip : String) : Option black :=
  (b.Black.Delete ip).map (fun k => ⟨b.White, k⟩)

/-! ## Paths: the vocabulary of the statements

A node of the trie is named by the list of turns from the root, `false` for
`Left` (bit 0) and `true` for `Right` (bit 1). -/

/-- The turn taken for bit `num` of `val`: the test `val>>num&1 == 0` sends
the walk to `Left`. -/
def turn (val num : Nat) : Bool := !(decide (shrU val num &&& 1 = 0))

/-- The turns of the loop of `Insert` and `Delete`: `bit` iterations, the
shift count starting at `num` and decremented each time. -/
def bitsOf (val : Nat) : (bit : Nat) → (num : Nat) → List Bool
  | 0, _ => []
  | bit + 1, num => turn val num :: bitsOf val bit (decU num)

/-- The turns of the loop of `Look` with `num` iterations left: bits
`num - 1`, ..., `0` of `ip`. -/
def lookBits (ip : Nat) : (num : Nat) → List Bool
  | 0 => []
  | num + 1 => turn ip num :: lookBits ip num

/-- The path of the rule `val/bit`: the turns `Insert` and `Delete` take. -/
def rulePath (val bit : Nat) : List Bool := bitsOf val bit 31

/-- The child of a node in a direction. -/
def blackNode.child (n : blackNode) (b : Bool) : Option blackNode :=
  if b then n.Right else n.Left

/-- The node at the end of a path, when every edge of the path exists. -/
def nodeAt : List Bool → blackNode → Option blackNode
  | [], n => some n
  | b :: p, n =>
    match n.child b with
    | none => none
    | some x => nodeAt p x

/-- Terminal flag and counter of a node. -/
def blackNode.label (n : blackNode) : Bool × Nat := (n.Data, n.Count)

/-- Insertion along a path: create the missing nodes, mark the last one. -/
def insertPath : List Bool → blackNode → blackNode
  | [], .mk l r _ c => .mk l r true c
  | false :: p, .mk l r d c => .mk (some (insertPath p (l.getD blackNode.new))) r d c
  | true :: p, .mk l r d c => .mk l (some (insertPath p (r.getD blackNode.new))) d c

/-- Lookup along a path. -/
def lookPath : List Bool → blackNode → blackNode × Bool
  | [], .mk l r d c => (.mk l r d (incU c), true)
  | false :: p, .mk l r d c =>
    if d then (.mk l r d (incU c), true)
    else
      match l with
      | none => (.mk l r d c, false)
      | some x => (.mk (some (lookPath p x).1) r d c, (lookPath p x).2)
  | true :: p, .mk l r d c =>
    if d then (.mk l r d (incU c), true)
    else
      match r with
      | none => (.mk l r d c, false)
      | some x => (.mk l (some (lookPath p x).1) d c, (lookPath p x).2)

/-- What the walk of `Delete` finds below a node: a missing edge, a complete
path without a cut point, or the node after the cut at the deepest cut point. -/
inductive Walk where
  | absent
  | nocut
  | cut (n : blackNode)

/-- The walk of `Delete` along a path. -/
def walkPath : List Bool → blackNode → Walk
  | [], _ => Walk.nocut
  | false :: p, .mk l r d c =>
    match l with
    | none => Walk.absent
    | some x =>
      match walkPath p x with
      | Walk.absent => Walk.absent
      | Walk.cut y => Walk.cut (.mk (some y) r d c)
      | Walk.nocut => if r.isSome || d then Walk.cut (.mk none r d c) else Walk.nocut
  | true :: p, .mk l r d c =>
    match r with
    | none => Walk.absent
    | some x =>
      match walkPath p x with
      | Walk.absent => Walk.absent
      | Walk.cut y => Walk.cut (.mk l (some y) d c)
      | Walk.nocut => if l.isSome then Walk.cut (.mk l none d c) else Walk.nocut

/-- Deletion along a path. -/
def deletePath (p : List Bool) (t : blackNode) : blackNode :=
  match walkPath p t with
  | Walk.absent => t
  | Walk.nocut => blackNode.new
  | Walk.cut x => x

/-- The last statements of `Delete` (black.go:187-195) for a recorded
`lastnode`. -/
def finishDelete (last : Option ((blackNode → blackNode) × blackNode)) (lastflag : Bool) :
    blackNode :=
  match last with
  | some (k, .mk l r d c) => if lastflag then k (.mk none r d c) else k (.mk l none d c)
  | none => blackNode.new

/-- Replace the counter of the node at the end of a path by its increment. -/
def bumpAt : List Bool → blackNode → blackNode
  | [], .mk l r d c => .mk l r d (incU c)
  | false :: p, .mk l r d c => .mk (l.map (bumpAt p)) r d c
  | true :: p, .mk l r d c => .mk l (r.map (bumpAt p)) d c

/-- The `.`-separated fields of the address part of a text: the part before
the first `/`, or the whole text when there is none. -/
def addrFields (ip : String) : List (List Char) :=
  match cutSlash ip.toList with
  | none => Split '.' ip.toList
  | some (addr, _) => Split '.' addr

/-- The terminal nodes of a trie in the order `List` visits them (the node,
then `Left`, then `Right`), each with its path from the root and its counter. -/
def terminals : blackNode → List (List Bool × Nat)
  | .mk l r d c =>
    (if d then [([], c)] else []) ++
    (match l with
      | none => []
      | some x => (terminals x).map (fun e => (false :: e.1, e.2))) ++
    (match r with
      | none => []
      | some x => (terminals x).map (fun e => (true :: e.1, e.2)))

/-- The entry `List` appends for the terminal node at path `q` below a node
visited with the arguments `pre` and `bit`, `c` being the counter of that
terminal node. -/
def listEntry (pre bit : Nat) : List Bool → Nat → blackInfo
  | [], c => ⟨int2ip (shlU pre bit), subU 32 bit, c⟩
  | false :: q, c => listEntry (shlU pre 1) (decU bit) q c
  | true :: q, c => listEntry (shlU pre 1 ||| 1) (decU bit) q c

/-- Every counter of the trie is 0. -/
inductive ZeroCounts : blackNode → Prop
  | mk (l r : Option blackNode) (d : Bool) :
      (∀ x, l = some x → ZeroCounts x) → (∀ x, r = some x → ZeroCounts x) →
      ZeroCounts (.mk l r d 0)

/-- The number whose binary digits, most significant first, are `q`, read
after the digits of `pre`. -/
def pathVal (pre : Nat) (q : List Bool) : Nat :=
  q.foldl (fun v b => 2 * v + b.toNat) pre

/-- A rule `(a, p)`: address and prefix length. -/
abbrev Rule := Nat × Nat

/-- The entry of `List` for a stored rule with counter 0: the address with its
low `32 - p` bits cleared, in dotted form, and the prefix length. -/
def ruleInfo (r : Rule) : blackInfo :=
  ⟨int2ip ((r.1 >>> (32 - r.2)) <<< (32 - r.2)), r.2, 0⟩

/-- Two rules have disjoint prefixes: they differ within the top
`min p q` bits. -/
def disjointRules (r s : Rule) : Prop :=
  r.1 >>> (32 - min r.2 s.2) ≠ s.1 >>> (32 - min r.2 s.2)

/-- Insert the rules of a list, in the order of the list. -/
def insertAll (rules : List Rule) (t : blackNode) : blackNode :=
  rules.foldl (fun t r => t.InsertRule r.1 r.2) t

/-- An entry of `List` covers an address: the top `Mask` bits of the dotted
address of the entry are those of `ip`. -/
def covers (e : blackInfo) (ip : Nat) : Bool :=
  match ip2int e.Addr with
  | some v => decide (v >>> (32 - e.Mask) = ip >>> (32 - e.Mask))
  | none => false

/-- A call that changes a trie: `Insert` or `Delete` of the rule `val/bit`. -/
inductive Op where
  | insert (val bit : Nat)
  | delete (val bit : Nat)

/-- The prefix length of a call. -/
def Op.bit : Op → Nat
  | .insert _ b => b
  | .delete _ b => b

/-- The trie after a call. -/
def Op.run (t : blackNode) : Op → blackNode
  | .insert v b => t.InsertRule v b
  | .delete v b => t.DeleteRule v b

/-- The trie after a sequence of calls. -/
def runOps (ops : List Op) (t : blackNode) : blackNode :=
  ops.foldl Op.run t

/-- Every node `n` edges below this node is terminal. -/
def fullAt : Nat → blackNode → Prop
  | 0, t => t.Data = true
  | n + 1, t => (∀ x, t.Left = some x → fullAt n x) ∧ (∀ x, t.Right = some x → fullAt n x)

/-- The text `b0.b1.b2.b3`, each number written in decimal. -/
def dotted (b0 b1 b2 b3 : Nat) : String :=
  Nat.repr b0 ++ "." ++ Nat.repr b1 ++ "." ++ Nat.repr b2 ++ "." ++ Nat.repr b3

/-- A call on a trie: `Insert` or `Delete` of the rule `val/bit`, or `Look`
of an address. -/
inductive Call where
  | insert (val bit : Nat)
  | delete (val bit : Nat)
  | look (ip : Nat)

/-- The trie after a call. -/
def Call.run (t : blackNode) : Call → blackNode
  | .insert v b => t.InsertRule v b
  | .delete v b => t.DeleteRule v b
  | .look ip => (t.Look ip).1

/-- The trie after a sequence of calls. -/
def runCalls (cs : List Call) (t : blackNode) : blackNode :=
  cs.foldl Call.run t

/-- A node that is terminal or has a child, all of whose descendants are so
too. -/
inductive Live : blackNode → Prop
  | mk (l r : Option blackNode) (d : Bool) (c : Nat) :
      (d = true ∨ l ≠ none ∨ r ≠ none) →
      (∀ x, l = some x → Live x) → (∀ x, r = some x → Live x) → Live (.mk l r d c)

/-- Every node below this one is terminal or has a child. -/
def NoDead (t : blackNode) : Prop :=
  (∀ x, t.Left = some x → Live x) ∧ (∀ x, t.Right = some x → Live x)

/-- No node lies more than `n` edges below this node. -/
def depthLe : Nat → blackNode → Prop
  | 0, t => t.Left = none ∧ t.Right = none
  | n + 1, t => (∀ x, t.Left = some x → depthLe n x) ∧ (∀ x, t.Right = some x → depthLe n x)

/-- The 32-bit address whose leading bits are the turns of `q` and whose other
bits are 0. -/
def pathAddr (q : List Bool) : Nat := pathVal 0 q <<< (32 - q.length)

/-- The entry lies under the rule `a/p`: its mask is at least `p` and the top
`p` bits of its dotted address are those of `a`. -/
def under (e : blackInfo) (a p : Nat) : Bool :=
  decide (p ≤ e.Mask) &&
    match ip2int e.Addr with
    | some v => decide (v >>> (32 - p) = a >>> (32 - p))
    | none => false

/-- The prefix of the entry is disjoint from that of the rule `a/p`: the top
`min p Mask` bits of its dotted address differ from those of `a`. -/
def disjointEntry (s : blackInfo) (a p : Nat) : Bool :=
  match ip2int s.Addr with
  | some b => decide (b >>> (32 - min p s.Mask) ≠ a >>> (32 - min p s.Mask))
  | none => false

/-- The entry is the rule `a/p`: its mask is `p` and the top `p` bits of its
dotted address are those of `a`. -/
def storedAs (e : blackInfo) (a p : Nat) : Bool :=
  decide (e.Mask = p) &&
    match ip2int e.Addr with
    | some v => decide (v >>> (32 - p) = a >>> (32 - p))
    | none => false

/-- The strict order of `List` entries: by numeric value of the dotted
address, then by mask length. -/
def entryLt (e f : blackInfo) : Bool :=
  match ip2int e.Addr, ip2int f.Addr with
  | some v, some w => decide (v < w ∨ (v = w ∧ e.Mask < f.Mask))
  | _, _ => false

/-- The order in which `List` visits two nodes, given their paths: a node
before the nodes below it, the `Left` subtree before the `Right` one. -/
def pathLt : List Bool → List Bool → Bool
  | [], [] => false
  | [], _ :: _ => true
  | _ :: _, [] => false
  | b :: q, b' :: q' => if b = b' then pathLt q q' else (!b && b')

/-- The number whose `n` binary digits are the turns of `q` followed by
zeros. -/
def padVal (n : Nat) (q : List Bool) : Nat := pathVal 0 q * 2 ^ (n - q.length)

/-- A nonempty text of ASCII digits: an unsigned decimal integer. -/
def decimal (s : List Char) : Bool := !s.isEmpty && s.all Char.isDigit

/-- The text does not start with a sign. -/
def noSign : List Char → Bool
  | [] => true
  | c :: _ => !(c == '-') && !(c == '+')

/-- The kinds of field the parsing statement covers: an unsigned decimal
integer below `2^63`, in range or not, or a text of fewer than 19 characters
that is not an unsigned decimal integer and does not start with a sign. -/
def plainField (s : List Char) : Bool :=
  (decimal s && decide (digitsVal s < 2 ^ 63)) ||
    (!decimal s && decide (s.length < 19) && noSign s)

/-- The number expected for a field of these kinds: the value of an unsigned
decimal integer, 0 for other text. -/
def lenient (s : List Char) : Nat := if decimal s then digitsVal s else 0

/-- Fields joined by dots. -/
def joinFields : List (List Char) → List Char
  | [] => []
  | [f] => f
  | f :: g :: fs => f ++ '.' :: joinFields (g :: fs)

/-! ## The loops follow paths -/

theorem turn_of_zero {val num : Nat} (h : shrU val num &&& 1 = 0) : turn val num = false := by
  unfold turn; rw [decide_eq_true h]; rfl

theorem turn_of_ne {val num : Nat} (h : ¬ shrU val num &&& 1 = 0) : turn val num = true := by
  unfold turn; rw [decide_eq_false h]; rfl

theorem InsertLoop_eq_insertPath (val : Nat) :
    ∀ (bit num : Nat) (node : blackNode),
      blackNode.InsertLoop val bit num node = insertPath (bitsOf val bit num) node := by
  intro bit
  induction bit with
  | zero => intro num node; cases node; rfl
  | succ bit ih =>
    intro num node
    cases node with
    | mk l r d c =>
      by_cases h : shrU val num &&& 1 = 0
      · simp only [blackNode.InsertLoop, bitsOf, turn_of_zero h, if_pos h, insertPath, ih]
      · simp only [blackNode.InsertLoop, bitsOf, turn_of_ne h, if_neg h, insertPath, ih]

theorem InsertRule_eq (node : blackNode) (val bit : Nat) :
    node.InsertRule val bit = insertPath (rulePath val bit) node :=
  InsertLoop_eq_insertPath val bit 31 node

theorem LookLoop_eq_lookPath (ip : Nat) :
    ∀ (num : Nat) (node : blackNode),
      blackNode.LookLoop ip num node = lookPath (lookBits ip num) node := by
  intro num
  induction num with
  | zero => intro node; cases node; rfl
  | succ num ih =>
    intro node
    cases node with
    | mk l r d c =>
      by_cases h : shrU ip num &&& 1 = 0
      · cases l <;>
          simp only [blackNode.LookLoop, lookBits, turn_of_zero h, if_pos h, lookPath, ih]
      · cases r <;>
          simp only [blackNode.LookLoop, lookBits, turn_of_ne h, if_neg h, lookPath, ih]

theorem Look_eq (node : blackNode) (ip : Nat) :
    node.Look ip = lookPath (lookBits ip 32) node :=
  LookLoop_eq_lookPath ip 32 node

theorem DeleteLoop_eq_walk (rootnode : blackNode) (val : Nat) :
    ∀ (bit num : Nat) (node : blackNode) (ctx : blackNode → blackNode)
      (last : Option ((blackNode → blackNode) × blackNode)) (lastflag : Bool),
      blackNode.DeleteLoop rootnode val bit num node ctx last lastflag =
        match walkPath (bitsOf val bit num) node with
        | Walk.absent => rootnode
        | Walk.nocut => finishDelete last lastflag
        | Walk.cut x => ctx x := by
  intro bit
  induction bit with
  | zero =>
    intro num node ctx last lastflag
    cases node
    rcases last with _ | ⟨k, n⟩
    · rfl
    · cases n; rfl
  | succ bit ih =>
    intro num node ctx last lastflag
    cases node with
    | mk l r d c =>
      by_cases h : shrU val num &&& 1 = 0
      · cases l with
        | none => simp only [blackNode.DeleteLoop, bitsOf, turn_of_zero h, if_pos h, walkPath]
        | some x =>
          by_cases hc : (r.isSome || d) = true
          · simp only [blackNode.DeleteLoop, bitsOf, turn_of_zero h, if_pos h, walkPath,
              if_pos hc, ih]
            cases walkPath (bitsOf val bit (decU num)) x <;> simp [finishDelete]
          · simp only [blackNode.DeleteLoop, bitsOf, turn_of_zero h, if_pos h, walkPath,
              if_neg hc, ih]
            cases walkPath (bitsOf val bit (decU num)) x <;> simp
      · cases r with
        | none => simp only [blackNode.DeleteLoop, bitsOf, turn_of_ne h, if_neg h, walkPath]
        | some x =>
          by_cases hc : l.isSome = true
          · simp only [blackNode.DeleteLoop, bitsOf, turn_of_ne h, if_neg h, walkPath,
              if_pos hc, ih]
            cases walkPath (bitsOf val bit (decU num)) x <;> simp [finishDelete]
          · simp only [blackNode.DeleteLoop, bitsOf, turn_of_ne h, if_neg h, walkPath,
              if_neg hc, ih]
            cases walkPath (bitsOf val bit (decU num)) x <;> simp

theorem DeleteRule_eq (node : blackNode) (val bit : Nat) :
    node.DeleteRule val bit = deletePath (rulePath val bit) node := by
  unfold blackNode.DeleteRule deletePath rulePath
  rw [DeleteLoop_eq_walk]
  cases walkPath (bitsOf val bit 31) node <;> rfl

/-! ## Bits of an address -/

theorem decU_succ (n : Nat) : decU (n + 1) = n := by
  unfold decU subU
  rw [if_pos (by omega)]
  omega

theorem bitsOf_eq_take (val : Nat) :
    ∀ (bit num : Nat), bit ≤ num + 1 → num < 2 ^ 64 →
      bitsOf val bit num = (lookBits val (num + 1)).take bit := by
  intro bit
  induction bit with
  | zero => intro num _ _; rfl
  | succ bit ih =>
    intro num hb hn
    cases bit with
    | zero => simp [bitsOf, lookBits]
    | succ b =>
      obtain ⟨m, rfl⟩ : ∃ m, num = m + 1 := ⟨num - 1, by omega⟩
      have hm : m < 2 ^ 64 := by omega
      have := ih m (by omega) hm
      rw [bitsOf, decU_succ m, this]
      rfl

theorem rulePath_eq_take (val bit : Nat) (h : bit ≤ 32) :
    rulePath val bit = (lookBits val 32).take bit :=
  bitsOf_eq_take val bit 31 h (by norm_num)

theorem length_lookBits (ip : Nat) : ∀ n, (lookBits ip n).length = n := by
  intro n
  induction n with
  | zero => rfl
  | succ n ih => simp [lookBits, ih]

theorem length_rulePath (val bit : Nat) (h : bit ≤ 32) : (rulePath val bit).length = bit := by
  rw [rulePath_eq_take val bit h, List.length_take, length_lookBits]
  omega

theorem turn_eq_of_shift {x y k m : Nat} (h : x >>> k = y >>> k) (hk : k ≤ m) (hm : m < 64) :
    turn x m = turn y m := by
  have e : m = k + (m - k) := by omega
  have hx : x >>> m = y >>> m := by
    rw [e, Nat.shiftRight_add, Nat.shiftRight_add, h]
  unfold turn shrU
  rw [if_neg (by omega), if_neg (by omega), hx]

theorem take_lookBits_congr {x y : Nat} :
    ∀ (p n : Nat), p ≤ n → n ≤ 64 → x >>> (n - p) = y >>> (n - p) →
      (lookBits x n).take p = (lookBits y n).take p := by
  intro p
  induction p with
  | zero => intro n _ _ _; rfl
  | succ p ih =>
    intro n hp hn h
    obtain ⟨m, rfl⟩ : ∃ m, n = m + 1 := ⟨n - 1, by omega⟩
    have e : m + 1 - (p + 1) = m - p := by omega
    rw [e] at h
    simp only [lookBits, List.take_succ_cons]
    rw [turn_eq_of_shift h (by omega) (by omega), ih m (by omega) (by omega) h]

/-! ## Insert then Look -/

theorem lookPath_terminal (q : List Bool) (l r : Option blackNode) (c : Nat) :
    (lookPath q (.mk l r true c)).2 = true := by
  rcases q with _ | ⟨b, q⟩
  · rfl
  · cases b <;> simp [lookPath]

theorem lookPath_insertPath (p q : List Bool) :
    ∀ t : blackNode, (lookPath (p ++ q) (insertPath p t)).2 = true := by
  induction p with
  | nil =>
    intro t
    cases t
    exact lookPath_terminal _ _ _ _
  | cons b p ih =>
    intro t
    cases t with
    | mk l r d c =>
      cases b <;> cases d <;> simp [insertPath, lookPath, ih]

/-- C1. Insert then Look matches the whole CIDR range: after `Insert(a/p)`
with `p ≤ 32` into any trie, `Look` returns true for every 32-bit address whose
top `p` bits are those of `a`. -/
theorem C1_insert_look_range (t : blackNode) (a p ip : Nat) (hp : p ≤ 32)
    (_ha : a < 2 ^ 32) (_hip : ip < 2 ^ 32) (h : ip >>> (32 - p) = a >>> (32 - p)) :
    ((t.InsertRule a p).Look ip).2 = true := by
  rw [InsertRule_eq, Look_eq, rulePath_eq_take a p hp,
    ← take_lookBits_congr p 32 hp (by norm_num) h]
  conv => lhs; arg 1; arg 1; rw [← List.take_append_drop p (lookBits ip 32)]
  exact lookPath_insertPath _ _ _

/-- C1 at `10.0.0.0/8` inserted into the empty trie and looked up with
`10.200.3.4`. -/
theorem C1_insert_look_range_witness :
    ((blackNode.new.InsertRule 167772160 8).Look 180880132).2 = true :=
  C1_insert_look_range blackNode.new 167772160 8 180880132 (by decide) (by decide) (by decide)
    (by decide)

/-! ## Insert twice -/

theorem insertPath_idem (p : List Bool) :
    ∀ t : blackNode, insertPath p (insertPath p t) = insertPath p t := by
  induction p with
  | nil => intro t; cases t; rfl
  | cons b p ih =>
    intro t
    cases t with
    | mk l r d c => cases b <;> simp [insertPath, ih]

theorem insertPath_of_terminal (p : List Bool) :
    ∀ (t n : blackNode), nodeAt p t = some n → n.Data = true → insertPath p t = t := by
  induction p with
  | nil =>
    intro t n h hd
    cases t with
    | mk l r d c =>
      simp only [nodeAt, Option.some.injEq] at h
      subst h
      simp only [blackNode.Data] at hd
      simp [insertPath, hd]
  | cons b p ih =>
    intro t n h hd
    cases t with
    | mk l r d c =>
      cases b
      · cases l with
        | none => simp [nodeAt, blackNode.child, blackNode.Left] at h
        | some x =>
          simp only [nodeAt, blackNode.child, blackNode.Left] at h
          simp [insertPath, ih x n h hd]
      · cases r with
        | none => simp [nodeAt, blackNode.child, blackNode.Right] at h
        | some x =>
          simp only [nodeAt, blackNode.child, blackNode.Right] at h
          simp [insertPath, ih x n h hd]

/-- C8. Insert is idempotent: inserting the rule `a/p` twice gives the same
trie (children, terminal flags and counters) as inserting it once, and when
the node of the rule is already terminal in `t` the insertion leaves `t` as it
is.  Holds for every prefix length, so for `0 ≤ p ≤ 32`. -/
theorem C8_insert_idempotent (t : blackNode) (a p : Nat) :
    (t.InsertRule a p).InsertRule a p = t.InsertRule a p ∧
    (∀ n, nodeAt (rulePath a p) t = some n → n.Data = true → t.InsertRule a p = t) := by
  refine ⟨?_, ?_⟩
  · rw [InsertRule_eq, InsertRule_eq, insertPath_idem]
  · intro n h hd
    rw [InsertRule_eq]
    exact insertPath_of_terminal _ t n h hd

/-- C8 at the rule `128.0.0.0/1` on a trie that stores it with counter 7. -/
theorem C8_insert_idempotent_witness :
    (blackNode.mk none (some (.mk none none true 7)) false 0).InsertRule 2147483648 1 =
      blackNode.mk none (some (.mk none none true 7)) false 0 :=
  (C8_insert_idempotent (blackNode.mk none (some (.mk none none true 7)) false 0)
    2147483648 1).2 (.mk none none true 7) rfl rfl

/-! ## Delete after Insert on the empty trie -/

theorem walkPath_insertPath_new (p : List Bool) :
    walkPath p (insertPath p blackNode.new) = Walk.nocut := by
  induction p with
  | nil => rfl
  | cons b p ih =>
    cases b
    · have e : insertPath (false :: p) blackNode.new =
          .mk (some (insertPath p blackNode.new)) none false 0 := rfl
      rw [e]
      simp [walkPath, ih]
    · have e : insertPath (true :: p) blackNode.new =
          .mk none (some (insertPath p blackNode.new)) false 0 := rfl
      rw [e]
      simp [walkPath, ih]

/-- C9. Delete undoes Insert on the empty trie: for every rule `a/p`,
`Insert` followed by `Delete` of the same rule on the empty trie gives the
empty trie again (no children, not terminal, counter 0), whose `List` is empty.
Holds for every prefix length, so for `0 ≤ p ≤ 32`. -/
theorem C9_delete_undoes_insert (a p : Nat) :
    (blackNode.new.InsertRule a p).DeleteRule a p = blackNode.new ∧
    ((blackNode.new.InsertRule a p).DeleteRule a p).List [] 0 32 = [] := by
  have h : (blackNode.new.InsertRule a p).DeleteRule a p = blackNode.new := by
    rw [InsertRule_eq, DeleteRule_eq, deletePath, walkPath_insertPath_new]
  rw [h]
  exact ⟨rfl, rfl⟩

/-! ## Deleting a nested rule -/

theorem walkPath_nested (P R : List Bool) (b : Bool) :
    walkPath (P ++ b :: R) (insertPath (P ++ b :: R) (insertPath P blackNode.new)) =
      if b then Walk.nocut else Walk.cut (insertPath P blackNode.new) := by
  induction P with
  | nil =>
    cases b
    · have e : insertPath ([] ++ false :: R) (insertPath [] blackNode.new) =
          .mk (some (insertPath R blackNode.new)) none true 0 := rfl
      rw [e]
      simp [walkPath, walkPath_insertPath_new]
      rfl
    · have e : insertPath ([] ++ true :: R) (insertPath [] blackNode.new) =
          .mk none (some (insertPath R blackNode.new)) true 0 := rfl
      rw [e]
      simp [walkPath, walkPath_insertPath_new]
  | cons b' P ih =>
    cases b
    · have ih' : walkPath (P ++ false :: R)
          (insertPath (P ++ false :: R) (insertPath P blackNode.new)) =
          Walk.cut (insertPath P blackNode.new) := by simpa using ih
      cases b'
      · have e : insertPath (false :: P ++ false :: R) (insertPath (false :: P) blackNode.new) =
            .mk (some (insertPath (P ++ false :: R) (insertPath P blackNode.new))) none false 0 :=
          rfl
        rw [e, List.cons_append, walkPath, ih']
        rfl
      · have e : insertPath (true :: P ++ false :: R) (insertPath (true :: P) blackNode.new) =
            .mk none (some (insertPath (P ++ false :: R) (insertPath P blackNode.new))) false 0 :=
          rfl
        rw [e, List.cons_append, walkPath, ih']
        rfl
    · have ih' : walkPath (P ++ true :: R)
          (insertPath (P ++ true :: R) (insertPath P blackNode.new)) = Walk.nocut := by
        simpa using ih
      cases b'
      · have e : insertPath (false :: P ++ true :: R) (insertPath (false :: P) blackNode.new) =
            .mk (some (insertPath (P ++ true :: R) (insertPath P blackNode.new))) none false 0 :=
          rfl
        rw [e, List.cons_append, walkPath, ih']
        rfl
      · have e : insertPath (true :: P ++ true :: R) (insertPath (true :: P) blackNode.new) =
            .mk none (some (insertPath (P ++ true :: R) (insertPath P blackNode.new))) false 0 :=
          rfl
        rw [e, List.cons_append, walkPath, ih']
        rfl

theorem lookBits_get (x : Nat) :
    ∀ (n k : Nat), k < n → (lookBits x n).drop k = turn x (n - 1 - k) :: (lookBits x n).drop (k + 1) := by
  intro n
  induction n with
  | zero => intro k hk; omega
  | succ n ih =>
    intro k hk
    cases k with
    | zero => simp [lookBits]
    | succ k =>
      have := ih k (by omega)
      simp only [lookBits, List.drop_succ_cons]
      rw [this]
      congr 2
      omega

theorem blackNode.Look_new (ip : Nat) : (blackNode.new.Look ip).2 = false := by
  unfold blackNode.Look blackNode.new
  simp only [blackNode.LookLoop, Bool.false_eq_true, if_false]
  split <;> rfl

/-- C2, the sequence on the code. For rules `A = a/p` and `D = d/q` with
`p < q ≤ 32` and `d` agreeing with `a` on the top `p` bits: when the first bit
of `d` below `A`'s prefix (bit `31 - p`) is 1, `Insert(A)`, `Insert(D)`,
`Delete(D)` on the empty trie gives the empty trie, so `List` is empty and
`Look` matches no address: rule `A` is lost. -/
theorem C2_delete_nested_right_loses_parent (a p d q : Nat) (hpq : p < q) (hq : q ≤ 32)
    (hagree : d >>> (32 - p) = a >>> (32 - p)) (hbit : turn d (31 - p) = true) :
    ((blackNode.new.InsertRule a p).InsertRule d q).DeleteRule d q = blackNode.new ∧
    (((blackNode.new.InsertRule a p).InsertRule d q).DeleteRule d q).List [] 0 32 = [] ∧
    ∀ ip, ((((blackNode.new.InsertRule a p).InsertRule d q).DeleteRule d q).Look ip).2 = false := by
  have hP : rulePath a p = (lookBits d 32).take p := by
    rw [rulePath_eq_take a p (by omega)]
    exact (take_lookBits_congr p 32 (by omega) (by norm_num) hagree).symm
  have hQ : rulePath d q = rulePath a p ++ true :: ((lookBits d 32).take q).drop (p + 1) := by
    rw [hP, rulePath_eq_take d q hq]
    have h1 : (lookBits d 32).take q =
        ((lookBits d 32).take q).take p ++ ((lookBits d 32).take q).drop p :=
      (List.take_append_drop p _).symm
    have h2 : ((lookBits d 32).take q).take p = (lookBits d 32).take p := by
      rw [List.take_take, Nat.min_eq_left (by omega)]
    have h3 : ((lookBits d 32).take q).drop p =
        true :: ((lookBits d 32).take q).drop (p + 1) := by
      have hd := lookBits_get d 32 p (by omega)
      rw [show 32 - 1 - p = 31 - p from rfl, hbit] at hd
      rw [List.drop_take, hd, show q - p = (q - p - 1) + 1 by omega, List.take_succ_cons,
        List.drop_take]
      congr 2
    rw [h2, h3] at h1
    exact h1
  have h : ((blackNode.new.InsertRule a p).InsertRule d q).DeleteRule d q = blackNode.new := by
    rw [InsertRule_eq, InsertRule_eq, DeleteRule_eq, hQ, deletePath, walkPath_nested]
    rfl
  rw [h]
  exact ⟨rfl, rfl, blackNode.Look_new⟩

/-- C2 at `A = 10.0.0.0/8`, `D = 10.128.0.0/9`. -/
theorem C2_delete_nested_right_loses_parent_witness :
    ((blackNode.new.InsertRule 167772160 8).InsertRule 176160768 9).DeleteRule 176160768 9 =
      blackNode.new :=
  (C2_delete_nested_right_loses_parent 167772160 8 176160768 9 (by decide) (by decide)
    (by decide) (by decide)).1

/-- The same sequence through the text interface: `Insert("10.0.0.0/8")`,
`Insert("10.128.0.0/9")`, `Delete("10.128.0.0/9")` leaves an empty `List`,
while with `10.1.0.0/16` as the nested rule `10.0.0.0/8` stays. -/
theorem delete_nested_text :
    (((blackNode.new.Insert "10.0.0.0/8").bind (fun t => t.Insert "10.128.0.0/9")).bind
        (fun t => t.Delete "10.128.0.0/9")).map (fun t => t.List [] 0 32) = some [] ∧
    (((blackNode.new.Insert "10.0.0.0/8").bind (fun t => t.Insert "10.1.0.0/16")).bind
        (fun t => t.Delete "10.1.0.0/16")).map (fun t => t.List [] 0 32) =
      some [⟨"10.0.0.0", 8, 0⟩] :=
  ⟨rfl, rfl⟩

/-! ## The node a lookup hits -/

theorem lookPath_hit (p q : List Bool) :
    ∀ (t n : blackNode), nodeAt p t = some n → n.Data = true →
      (∀ j, j < p.length → ∀ m, nodeAt (p.take j) t = some m → m.Data = false) →
      lookPath (p ++ q) t = (bumpAt p t, true) := by
  induction p with
  | nil =>
    intro t n h hd _
    cases t with
    | mk l r d c =>
      simp only [nodeAt, Option.some.injEq] at h
      subst h
      simp only [blackNode.Data] at hd
      subst hd
      rcases q with _ | ⟨b, q⟩
      · rfl
      · cases b <;> simp [lookPath, bumpAt]
  | cons b p ih =>
    intro t n h hd hmin
    cases t with
    | mk l r d c =>
      have hd0 : d = false := hmin 0 (by simp) (.mk l r d c) rfl
      subst hd0
      cases b
      · cases l with
        | none => simp [nodeAt, blackNode.child, blackNode.Left] at h
        | some x =>
          simp only [nodeAt, blackNode.child, blackNode.Left] at h
          have hmin' : ∀ j, j < p.length → ∀ m, nodeAt (p.take j) x = some m →
              m.Data = false := by
            intro j hj m hm
            exact hmin (j + 1) (by simp; omega) m
              (by simpa [nodeAt, blackNode.child, blackNode.Left] using hm)
          simp [lookPath, bumpAt, ih x n h hd hmin']
      · cases r with
        | none => simp [nodeAt, blackNode.child, blackNode.Right] at h
        | some x =>
          simp only [nodeAt, blackNode.child, blackNode.Right] at h
          have hmin' : ∀ j, j < p.length → ∀ m, nodeAt (p.take j) x = some m →
              m.Data = false := by
            intro j hj m hm
            exact hmin (j + 1) (by simp; omega) m
              (by simpa [nodeAt, blackNode.child, blackNode.Right] using hm)
          simp [lookPath, bumpAt, ih x n h hd hmin']

theorem nodeAt_bumpAt_self (p : List Bool) :
    ∀ (t n : blackNode), nodeAt p t = some n →
      nodeAt p (bumpAt p t) = some (.mk n.Left n.Right n.Data (incU n.Count)) := by
  induction p with
  | nil =>
    intro t n h
    cases t
    simp only [nodeAt, Option.some.injEq] at h
    subst h
    rfl
  | cons b p ih =>
    intro t n h
    cases t with
    | mk l r d c =>
      cases b
      · cases l with
        | none => simp [nodeAt, blackNode.child, blackNode.Left] at h
        | some x =>
          simp only [nodeAt, blackNode.child, blackNode.Left] at h
          simpa [nodeAt, bumpAt, blackNode.child, blackNode.Left] using ih x n h
      · cases r with
        | none => simp [nodeAt, blackNode.child, blackNode.Right] at h
        | some x =>
          simp only [nodeAt, blackNode.child, blackNode.Right] at h
          simpa [nodeAt, bumpAt, blackNode.child, blackNode.Right] using ih x n h

theorem nodeAt_bumpAt_ne (p : List Bool) :
    ∀ (q : List Bool) (t : blackNode), q ≠ p →
      (nodeAt q (bumpAt p t)).map blackNode.label = (nodeAt q t).map blackNode.label := by
  induction p with
  | nil =>
    intro q t hq
    cases t with
    | mk l r d c =>
      rcases q with _ | ⟨b, q⟩
      · exact absurd rfl hq
      · cases b <;> simp [nodeAt, bumpAt, blackNode.child, blackNode.Left, blackNode.Right]
  | cons b p ih =>
    intro q t hq
    cases t with
    | mk l r d c =>
      rcases q with _ | ⟨b', q⟩
      · cases b <;> simp [nodeAt, bumpAt, blackNode.label, blackNode.Data, blackNode.Count]
      · cases b <;> cases b'
        · cases l with
          | none => simp [nodeAt, bumpAt, blackNode.child, blackNode.Left]
          | some x =>
            have hq' : q ≠ p := fun e => hq (by rw [e])
            simpa [nodeAt, bumpAt, blackNode.child, blackNode.Left] using ih q x hq'
        · simp [nodeAt, bumpAt, blackNode.child, blackNode.Right]
        · simp [nodeAt, bumpAt, blackNode.child, blackNode.Left]
        · cases r with
          | none => simp [nodeAt, bumpAt, blackNode.child, blackNode.Right]
          | some x =>
            have hq' : q ≠ p := fun e => hq (by rw [e])
            simpa [nodeAt, bumpAt, blackNode.child, blackNode.Right] using ih q x hq'

/-- C3. Ancestor priority with a single counter increment. Let the node `n`
at depth `k ≤ 31` on the bit path of `ip` be terminal while every node above it
on that path is not. Then `Look` returns true; the node at that place keeps its
children and flag and its counter becomes `Count++` (the `uint64` increment,
which is `Count + 1` as long as the counter is below `2^64 - 1`); and at every
other place of the trie, deeper terminal nodes of the same path included, a
node exists after the call exactly when it did before, with the same terminal
flag and the same counter. -/
theorem C3_look_shallowest_terminal (t : blackNode) (ip k : Nat) (n : blackNode)
    (hk : k < 32) (hn : nodeAt ((lookBits ip 32).take k) t = some n) (hd : n.Data = true)
    (hmin : ∀ j, j < k → ∀ m, nodeAt ((lookBits ip 32).take j) t = some m → m.Data = false) :
    (t.Look ip).2 = true ∧
    (t.Look ip).1 = bumpAt ((lookBits ip 32).take k) t ∧
    nodeAt ((lookBits ip 32).take k) (t.Look ip).1 =
      some (.mk n.Left n.Right n.Data (incU n.Count)) ∧
    (n.Count + 1 < 2 ^ 64 → incU n.Count = n.Count + 1) ∧
    (∀ q, q ≠ (lookBits ip 32).take k →
      (nodeAt q (t.Look ip).1).map blackNode.label = (nodeAt q t).map blackNode.label) := by
  have hlen : ((lookBits ip 32).take k).length = k := by
    rw [List.length_take, length_lookBits]; omega
  have hmin' : ∀ j, j < ((lookBits ip 32).take k).length →
      ∀ m, nodeAt (((lookBits ip 32).take k).take j) t = some m → m.Data = false := by
    intro j hj m hm
    rw [hlen] at hj
    rw [List.take_take, Nat.min_eq_left (by omega)] at hm
    exact hmin j hj m hm
  have hl : t.Look ip = (bumpAt ((lookBits ip 32).take k) t, true) := by
    rw [Look_eq]
    conv => lhs; arg 1; rw [← List.take_append_drop k (lookBits ip 32)]
    exact lookPath_hit _ _ t n hn hd hmin'
  rw [hl]
  refine ⟨rfl, rfl, nodeAt_bumpAt_self _ t n hn, ?_, ?_⟩
  · intro h
    unfold incU
    exact Nat.mod_eq_of_lt h
  · intro q hq
    exact nodeAt_bumpAt_ne _ q t hq

/-- C3 on a trie holding `0.0.0.0/1` (counter 5) and, below it, `0.0.0.0/2`
(counter 9), looked up with `0.0.0.0`: the `/1` node is hit, the `/2` node
keeps its counter. -/
theorem C3_look_shallowest_terminal_witness :
    ((blackNode.mk (some (.mk (some (.mk none none true 9)) none true 5)) none false 0).Look 0).2
        = true ∧
    nodeAt [false] ((blackNode.mk (some (.mk (some (.mk none none true 9)) none true 5))
        none false 0).Look 0).1 = some (.mk (some (.mk none none true 9)) none true 6) ∧
    (nodeAt [false, false] ((blackNode.mk (some (.mk (some (.mk none none true 9)) none true 5))
        none false 0).Look 0).1).map blackNode.label = some (true, 9) :=
  have h := C3_look_shallowest_terminal
    (blackNode.mk (some (.mk (some (.mk none none true 9)) none true 5)) none false 0) 0 1
    (.mk (some (.mk none none true 9)) none true 5) (by decide) rfl rfl
    (by
      intro j hj m hm
      obtain rfl : j = 0 := by omega
      cases hm
      rfl)
  ⟨h.1, h.2.2.1, h.2.2.2.2 [false, false] (by decide)⟩

/-! ## Admission decision -/

theorem black.check_decision (b : black) (ip : Nat) :
    (b.check ip).2 =
      if (b.White.Look ip).2 then Decision.Allow
      else if (b.Black.Look ip).2 then Decision.Deny 403 else Decision.Unspecified := by
  unfold black.check
  by_cases hw : (b.White.Look ip).2 = true
  · simp [hw]
  · by_cases hb : (b.Black.Look ip).2 = true
    · simp [hw, hb]
    · simp [hw, hb]

/-- C4. Admission decision: for allow trie `W`, deny trie `B` and a request
whose address text parses to `ip`, `HandleHTTP` ends with the 403 response
(Deny) exactly when `W.Look(ip)` is false and `B.Look(ip)` is true; it ends
with Allow whenever `W.Look(ip)` is true, whatever `B` holds; and it ends with
Unspecified when neither trie matches. -/
theorem C4_admission_decision (W B : blackNode) (realIP : String) (ip : Nat)
    (hip : ip2int realIP = some ip) :
    (((black.HandleHTTP ⟨W, B⟩ realIP).map Prod.snd = some (Decision.Deny 403)) ↔
      ((W.Look ip).2 = false ∧ (B.Look ip).2 = true)) ∧
    ((W.Look ip).2 = true →
      (black.HandleHTTP ⟨W, B⟩ realIP).map Prod.snd = some Decision.Allow) ∧
    ((W.Look ip).2 = false → (B.Look ip).2 = false →
      (black.HandleHTTP ⟨W, B⟩ realIP).map Prod.snd = some Decision.Unspecified) := by
  have h : (black.HandleHTTP ⟨W, B⟩ realIP).map Prod.snd =
      some (if (W.Look ip).2 then Decision.Allow
        else if (B.Look ip).2 then Decision.Deny 403 else Decision.Unspecified) := by
    unfold black.HandleHTTP
    rw [hip]
    simp only [Option.map_some']
    rw [black.check_decision]
  rw [h]
  cases hw : (W.Look ip).2 <;> cases hb : (B.Look ip).2 <;> simp

/-- C4 on the scenario of the specification: deny `192.168.0.0/16`, allow
`192.168.5.0/24`; `192.168.5.5` is allowed and `192.167.5.5` is unspecified. -/
theorem C4_admission_decision_witness :
    (black.HandleHTTP ⟨blackNode.new.InsertRule 3232236800 24,
        blackNode.new.InsertRule 3232235520 16⟩ "192.168.5.5").map Prod.snd =
      some Decision.Allow ∧
    (black.HandleHTTP ⟨blackNode.new.InsertRule 3232236800 24,
        blackNode.new.InsertRule 3232235520 16⟩ "192.167.5.5").map Prod.snd =
      some Decision.Unspecified :=
  ⟨(C4_admission_decision (blackNode.new.InsertRule 3232236800 24)
      (blackNode.new.InsertRule 3232235520 16) "192.168.5.5" 3232236805 rfl).2.1 rfl,
   (C4_admission_decision (blackNode.new.InsertRule 3232236800 24)
      (blackNode.new.InsertRule 3232235520 16) "192.167.5.5" 3232171269 rfl).2.2 rfl rfl⟩

/-- C5, as the specification states it, fails: on a new policy, after
`InsertBlack("10.0.0.0/8")` and `InsertWhite("10.1.0.0/16")`, the request from
`10.1.2.3` is not answered with the 403 response. -/
theorem C5_cross_list_not_deny :
    (((newBlack.InsertBlack "10.0.0.0/8").bind (fun b => b.InsertWhite "10.1.0.0/16")).bind
        (fun b => b.HandleHTTP "10.1.2.3")).map Prod.snd ≠ some (Decision.Deny 403) := by
  decide

/-- C5, amended. On a new policy, after `InsertBlack("10.0.0.0/8")` and
`InsertWhite("10.1.0.0/16")`, the request from `10.1.2.3` ends with Allow: the
white list is asked first and matches its `/16` rule, and the black list is
left as it was (its `/8` rule keeps counter 0). -/
theorem C5_cross_list_allow :
    (((newBlack.InsertBlack "10.0.0.0/8").bind (fun b => b.InsertWhite "10.1.0.0/16")).bind
        (fun b => b.HandleHTTP "10.1.2.3")).map
        (fun r => (r.2, r.1.White.List [] 0 32, r.1.Black.List [] 0 32)) =
      some (Decision.Allow, [⟨"10.1.0.0", 16, 1⟩], [⟨"10.0.0.0", 8, 0⟩]) := by
  rfl

/-! ## Induction on tries -/

theorem blackNode.ind {P : blackNode → Prop}
    (h : ∀ l r d c, (∀ x, l = some x → P x) → (∀ x, r = some x → P x) → P (.mk l r d c)) :
    ∀ t, P t := by
  intro t
  exact @blackNode.rec P (fun o => ∀ x, o = some x → P x)
    (fun l r d c hl hr => h l r d c hl hr)
    (fun x hx => by cases hx)
    (fun v hv x hx => by cases hx; exact hv) t

/-! ## List enumerates the terminal nodes -/

theorem List_eq_terminals :
    ∀ (t : blackNode) (data : List blackInfo) (pre bit : Nat),
      t.List data pre bit = data ++ (terminals t).map (fun e => listEntry pre bit e.1 e.2) := by
  intro t
  induction t using blackNode.ind with
  | h l r d c hl hr =>
    intro data pre bit
    cases l with
    | none =>
      cases r with
      | none => cases d <;> simp [blackNode.List, terminals, listEntry]
      | some y =>
        cases d <;>
          simp [blackNode.List, terminals, listEntry, hr y rfl, List.map_map, Function.comp_def]
    | some x =>
      cases r with
      | none =>
        cases d <;>
          simp [blackNode.List, terminals, listEntry, hl x rfl, List.map_map, Function.comp_def]
      | some y =>
        cases d <;>
          simp [blackNode.List, terminals, listEntry, hl x rfl, hr y rfl, List.map_map,
            Function.comp_def]

/-! ## Insertion and the terminal nodes -/

theorem insertPath_comm (p : List Bool) :
    ∀ (q : List Bool) (t : blackNode),
      insertPath p (insertPath q t) = insertPath q (insertPath p t) := by
  induction p with
  | nil =>
    intro q t
    cases t with
    | mk l r d c =>
      rcases q with _ | ⟨b, q⟩
      · rfl
      · cases b <;> rfl
  | cons b p ih =>
    intro q t
    cases t with
    | mk l r d c =>
      rcases q with _ | ⟨b', q⟩
      · cases b <;> rfl
      · cases b <;> cases b' <;> simp [insertPath, ih]

theorem terminals_new : terminals blackNode.new = [] := rfl

theorem terminals_mk (l r : Option blackNode) (d : Bool) (c : Nat) :
    terminals (.mk l r d c) =
      (if d then [([], c)] else []) ++
      (terminals (l.getD blackNode.new)).map (fun e => (false :: e.1, e.2)) ++
      (terminals (r.getD blackNode.new)).map (fun e => (true :: e.1, e.2)) := by
  cases l <;> cases r <;> simp [terminals, terminals_new]

theorem ZeroCounts.new : ZeroCounts blackNode.new :=
  ZeroCounts.mk none none false (fun _ h => by cases h) (fun _ h => by cases h)

theorem ZeroCounts.getD {l : Option blackNode} (h : ∀ x, l = some x → ZeroCounts x) :
    ZeroCounts (l.getD blackNode.new) := by
  cases l with
  | none => exact ZeroCounts.new
  | some x => exact h x rfl

theorem ZeroCounts.insertPath (p : List Bool) :
    ∀ t : blackNode, ZeroCounts t → ZeroCounts (insertPath p t) := by
  induction p with
  | nil =>
    intro t h
    cases h with
    | mk l r d hl hr => exact ZeroCounts.mk l r true hl hr
  | cons b p ih =>
    intro t h
    cases h with
    | mk l r d hl hr =>
      cases b
      · refine ZeroCounts.mk _ r d ?_ hr
        intro x hx
        cases hx
        exact ih _ (ZeroCounts.getD hl)
      · refine ZeroCounts.mk l _ d hl ?_
        intro x hx
        cases hx
        exact ih _ (ZeroCounts.getD hr)

theorem terminals_insertPath (p : List Bool) :
    ∀ t : blackNode, ZeroCounts t → (∀ c, (p, c) ∉ terminals t) →
      (terminals (insertPath p t)).Perm ((p, 0) :: terminals t) := by
  induction p with
  | nil =>
    intro t h hnot
    cases h with
    | mk l r d hl hr =>
      have hd : d = false := by
        cases d
        · rfl
        · exact absurd (by simp [terminals_mk]) (hnot 0)
      subst hd
      simp [insertPath, terminals_mk]
  | cons b p ih =>
    intro t h hnot
    cases h with
    | mk l r d hl hr =>
      cases b
      · have hnot' : ∀ c, (p, c) ∉ terminals (l.getD blackNode.new) := by
          intro c hc
          apply hnot c
          rw [terminals_mk]
          simp only [List.mem_append, List.mem_map]
          exact Or.inl (Or.inr ⟨(p, c), hc, rfl⟩)
        have hi := ih _ (ZeroCounts.getD hl) hnot'
        have hm := hi.map (fun e : List Bool × Nat => (false :: e.1, e.2))
        simp only [insertPath, terminals_mk, Option.getD_some, List.map_cons] at hm ⊢
        refine ((List.Perm.append_right _ ((List.Perm.append_left _ hm))).trans ?_)
        rw [List.append_assoc, List.cons_append]
        refine List.perm_middle.trans ?_
        rw [List.append_assoc]
      · have hnot' : ∀ c, (p, c) ∉ terminals (r.getD blackNode.new) := by
          intro c hc
          apply hnot c
          rw [terminals_mk]
          simp only [List.mem_append, List.mem_map]
          exact Or.inr ⟨(p, c), hc, rfl⟩
        have hi := ih _ (ZeroCounts.getD hr) hnot'
        have hm := hi.map (fun e : List Bool × Nat => (true :: e.1, e.2))
        simp only [insertPath, terminals_mk, Option.getD_some, List.map_cons] at hm ⊢
        refine ((List.Perm.append_left _ hm).trans ?_)
        exact List.perm_middle

theorem terminals_foldl_insertPath :
    ∀ (ps : List (List Bool)) (t : blackNode), ZeroCounts t → ps.Nodup →
      (∀ p ∈ ps, ∀ c, (p, c) ∉ terminals t) →
      (terminals (ps.foldl (fun t p => insertPath p t) t)).Perm
        (ps.map (fun p => (p, 0)) ++ terminals t) := by
  intro ps
  induction ps with
  | nil => intro t _ _ _; exact List.Perm.refl _
  | cons p ps ih =>
    intro t hz hnd hnot
    rw [List.nodup_cons] at hnd
    have h1 := terminals_insertPath p t hz (hnot p (List.mem_cons_self _ _))
    have hnot' : ∀ q ∈ ps, ∀ c, (q, c) ∉ terminals (insertPath p t) := by
      intro q hq c hc
      have := h1.subset hc
      rcases List.mem_cons.mp this with e | e
      · have : q = p := congrArg Prod.fst e
        exact hnd.1 (this ▸ hq)
      · exact hnot q (List.mem_cons_of_mem _ hq) c e
    have h2 := ih (insertPath p t) (ZeroCounts.insertPath p t hz) hnd.2 hnot'
    simp only [List.foldl_cons, List.map_cons, List.cons_append]
    refine h2.trans ?_
    refine (List.Perm.append_left _ h1).trans ?_
    exact List.perm_middle

/-! ## The entries of List -/

theorem shlU_small {pre bit : Nat} (hb : bit ≤ 32) (hpre : pre < 2 ^ (32 - bit)) :
    shlU pre bit = pre <<< bit := by
  unfold shlU
  rw [if_neg (by omega), Nat.shiftLeft_eq]
  apply Nat.mod_eq_of_lt
  have h1 : pre * 2 ^ bit < 2 ^ (32 - bit) * 2 ^ bit :=
    Nat.mul_lt_mul_of_pos_right hpre (Nat.pow_pos (by norm_num))
  have h2 : 2 ^ (32 - bit) * 2 ^ bit = 2 ^ 32 := by
    rw [← Nat.pow_add]; congr 1; omega
  rw [h2] at h1
  exact lt_trans h1 (by norm_num)

theorem subU_small {a b : Nat} (h : b ≤ a) : subU a b = a - b := by
  unfold subU
  rw [if_pos h]

theorem pathVal_cons (pre : Nat) (b : Bool) (q : List Bool) :
    pathVal pre (b :: q) = pathVal (2 * pre + b.toNat) q := rfl

theorem listEntry_eq (q : List Bool) :
    ∀ (pre bit c : Nat), q.length ≤ bit → bit ≤ 32 → pre < 2 ^ (32 - bit) →
      listEntry pre bit q c =
        ⟨int2ip (pathVal pre q <<< (bit - q.length)), 32 - (bit - q.length), c⟩ := by
  induction q with
  | nil =>
    intro pre bit c _ hb hpre
    simp only [listEntry, shlU_small hb hpre, subU_small hb, pathVal, List.foldl_nil,
      List.length_nil, Nat.sub_zero]
  | cons b q ih =>
    intro pre bit c hq hb hpre
    simp only [List.length_cons] at hq
    obtain ⟨m, rfl⟩ : ∃ m, bit = m + 1 := ⟨bit - 1, by omega⟩
    have hpre2 : 2 * pre < 2 ^ (32 - m) := by
      have : 2 ^ (32 - m) = 2 * 2 ^ (32 - (m + 1)) := by
        rw [← Nat.pow_succ']; congr 1; omega
      omega
    have hpre1 : pre < 2 ^ (32 - 1) :=
      lt_of_lt_of_le hpre (Nat.pow_le_pow_right (by norm_num) (by omega))
    have hs : shlU pre 1 = 2 * pre := by
      rw [shlU_small (by norm_num) hpre1, Nat.shiftLeft_eq]; omega
    have hlen : m + 1 - (q.length + 1) = m - q.length := by omega
    cases b
    · have := ih (2 * pre) m c (by omega) (by omega) hpre2
      simp only [listEntry, hs, decU_succ, this, pathVal_cons, Bool.toNat_false, Nat.add_zero,
        List.length_cons, hlen]
    · have h1 : 2 * pre + 1 < 2 ^ (32 - m) := by
        have : 2 ^ (32 - m) = 2 * 2 ^ (32 - (m + 1)) := by
          rw [← Nat.pow_succ']; congr 1; omega
        omega
      have hor : 2 * pre ||| 1 = 2 * pre + 1 := by
        have := Nat.mul_add_lt_is_or (show 1 < 2 ^ 1 by norm_num) pre
        simpa using this.symm
      have := ih (2 * pre + 1) m c (by omega) (by omega) h1
      simp only [listEntry, hs, hor, decU_succ, this, pathVal_cons, Bool.toNat_true,
        List.length_cons, hlen]

theorem turn_toNat (x m : Nat) (hm : m < 64) : (turn x m).toNat = x / 2 ^ m % 2 := by
  unfold turn shrU
  rw [if_neg (by omega), Nat.and_one_is_mod, Nat.shiftRight_eq_div_pow]
  rcases Nat.mod_two_eq_zero_or_one (x / 2 ^ m) with h | h <;> simp [h]

theorem pathVal_take_lookBits (x : Nat) :
    ∀ (p n pre : Nat), p ≤ n → n ≤ 64 →
      pathVal pre ((lookBits x n).take p) = pre * 2 ^ p + x % 2 ^ n / 2 ^ (n - p) := by
  intro p
  induction p with
  | zero =>
    intro n pre _ _
    have : x % 2 ^ n / 2 ^ n = 0 := Nat.div_eq_of_lt (Nat.mod_lt _ (Nat.pow_pos (by norm_num)))
    simp [pathVal, this]
  | succ p ih =>
    intro n pre hp hn
    obtain ⟨m, rfl⟩ : ∃ m, n = m + 1 := ⟨n - 1, by omega⟩
    have e : m + 1 - (p + 1) = m - p := by omega
    have hpow : (2 : Nat) ^ m = 2 ^ (m - p) * 2 ^ p := by
      rw [← Nat.pow_add]; congr 1; omega
    have hmod : x % 2 ^ (m + 1) = x % 2 ^ m + 2 ^ (m - p) * (2 ^ p * (x / 2 ^ m % 2)) := by
      rw [Nat.mod_pow_succ, ← Nat.mul_assoc, ← hpow]
    have hdiv : x % 2 ^ (m + 1) / 2 ^ (m - p) =
        x % 2 ^ m / 2 ^ (m - p) + 2 ^ p * (x / 2 ^ m % 2) := by
      rw [hmod, Nat.add_mul_div_left _ _ (Nat.pow_pos (by norm_num))]
    simp only [lookBits, List.take_succ_cons, pathVal_cons]
    rw [ih m _ (by omega) (by omega), turn_toNat x m (by omega), e, hdiv]
    ring

theorem listEntry_rulePath (a p c : Nat) (ha : a < 2 ^ 32) (hp : p ≤ 32) :
    listEntry 0 32 (rulePath a p) c =
      ⟨int2ip ((a >>> (32 - p)) <<< (32 - p)), p, c⟩ := by
  have hl := length_rulePath a p hp
  rw [listEntry_eq _ 0 32 c (by omega) (by norm_num) (by norm_num), hl,
    rulePath_eq_take a p hp, pathVal_take_lookBits a p 32 0 hp (by norm_num),
    Nat.mod_eq_of_lt ha, Nat.shiftRight_eq_div_pow]
  simp only [Nat.zero_mul, Nat.zero_add]
  congr 1
  omega

theorem rulePath_inj {a p b q : Nat} (ha : a < 2 ^ 32) (hp : p ≤ 32) (hb : b < 2 ^ 32)
    (hq : q ≤ 32) (h : rulePath a p = rulePath b q) :
    p = q ∧ a >>> (32 - p) = b >>> (32 - p) := by
  have hpq : p = q := by
    have := congrArg List.length h
    rwa [length_rulePath a p hp, length_rulePath b q hq] at this
  subst hpq
  refine ⟨rfl, ?_⟩
  have h1 := pathVal_take_lookBits a p 32 0 hp (by norm_num)
  have h2 := pathVal_take_lookBits b p 32 0 hp (by norm_num)
  rw [← rulePath_eq_take a p hp, Nat.mod_eq_of_lt ha] at h1
  rw [← rulePath_eq_take b p hp, Nat.mod_eq_of_lt hb] at h2
  rw [Nat.shiftRight_eq_div_pow, Nat.shiftRight_eq_div_pow]
  rw [h] at h1
  omega

/-! ## List after a batch of insertions -/

theorem insertAll_eq_foldl (rules : List Rule) (t : blackNode) :
    insertAll rules t =
      (rules.map (fun r => rulePath r.1 r.2)).foldl (fun t p => insertPath p t) t := by
  unfold insertAll
  rw [List.foldl_map]
  congr 1
  funext t r
  exact InsertRule_eq t r.1 r.2

theorem insertAll_perm {rules rules' : List Rule} (h : rules'.Perm rules) (t : blackNode) :
    insertAll rules' t = insertAll rules t := by
  unfold insertAll
  refine List.Perm.foldl_eq' h ?_ t
  intro x _ y _ z
  simp only [InsertRule_eq]
  exact insertPath_comm _ _ _

theorem nodup_rulePaths (rules : List Rule) (hv : ∀ r ∈ rules, r.1 < 2 ^ 32 ∧ r.2 ≤ 32)
    (hd : rules.Pairwise disjointRules) :
    (rules.map (fun r => rulePath r.1 r.2)).Nodup := by
  unfold List.Nodup
  rw [List.pairwise_map]
  refine List.Pairwise.imp_of_mem ?_ hd
  intro r s hr hs hrs heq
  obtain ⟨hpq, hsh⟩ := rulePath_inj (hv r hr).1 (hv r hr).2 (hv s hs).1 (hv s hs).2 heq
  apply hrs
  rw [← hpq, Nat.min_self]
  exact hsh

theorem clear_low_bits {a k : Nat} (h : a % 2 ^ k = 0) : (a >>> k) <<< k = a := by
  rw [Nat.shiftRight_eq_div_pow, Nat.shiftLeft_eq]
  exact Nat.div_mul_cancel (Nat.dvd_of_mod_eq_zero h)

/-- C7. List round trip, independent of the insertion order. For rules
`(a_i, p_i)` with 32-bit addresses, `p_i ≤ 32` and pairwise disjoint prefixes:
inserting them into the empty trie in any order gives the same trie;
`List(nil, 0, 32)` on it is a rearrangement of the entries (`a_i` with its low
`32 - p_i` bits cleared, `p_i`, count 0), one for each rule; and when every
`a_i` has zero host bits these are the entries (`a_i`, `p_i`, 0). -/
theorem C7_list_round_trip (rules rules' : List Rule)
    (hv : ∀ r ∈ rules, r.1 < 2 ^ 32 ∧ r.2 ≤ 32) (hd : rules.Pairwise disjointRules)
    (hperm : rules'.Perm rules) :
    insertAll rules' blackNode.new = insertAll rules blackNode.new ∧
    ((insertAll rules blackNode.new).List [] 0 32).Perm (rules.map ruleInfo) ∧
    ((∀ r ∈ rules, r.1 % 2 ^ (32 - r.2) = 0) →
      ((insertAll rules blackNode.new).List [] 0 32).Perm
        (rules.map (fun r => ⟨int2ip r.1, r.2, 0⟩))) := by
  have hlist : ((insertAll rules blackNode.new).List [] 0 32).Perm (rules.map ruleInfo) := by
    have ht := terminals_foldl_insertPath (rules.map (fun r => rulePath r.1 r.2)) blackNode.new
      ZeroCounts.new (nodup_rulePaths rules hv hd) (by intro p _ c hc; cases hc)
    rw [terminals_new, List.append_nil] at ht
    rw [List_eq_terminals, List.nil_append, insertAll_eq_foldl]
    have hm := ht.map (fun e : List Bool × Nat => listEntry 0 32 e.1 e.2)
    refine hm.trans ?_
    rw [List.map_map, List.map_map]
    have : List.map (((fun e : List Bool × Nat => listEntry 0 32 e.1 e.2) ∘
        fun p => (p, 0)) ∘ fun r : Rule => rulePath r.1 r.2) rules = rules.map ruleInfo := by
      apply List.map_congr_left
      intro r hr
      simp only [Function.comp_apply]
      exact listEntry_rulePath r.1 r.2 0 (hv r hr).1 (hv r hr).2
    rw [this]
  refine ⟨insertAll_perm hperm _, hlist, ?_⟩
  intro hz
  have : rules.map ruleInfo = rules.map (fun r => (⟨int2ip r.1, r.2, 0⟩ : blackInfo)) := by
    apply List.map_congr_left
    intro r hr
    unfold ruleInfo
    rw [clear_low_bits (hz r hr)]
  rw [← this]
  exact hlist

/-- C7 at the rules `10.0.0.0/8` and `192.168.0.0/16`, inserted in the two
possible orders. -/
theorem C7_list_round_trip_witness :
    insertAll [(3232235520, 16), (167772160, 8)] blackNode.new =
      insertAll [(167772160, 8), (3232235520, 16)] blackNode.new ∧
    ((insertAll [(167772160, 8), (3232235520, 16)] blackNode.new).List [] 0 32).Perm
      [⟨"10.0.0.0", 8, 0⟩, ⟨"192.168.0.0", 16, 0⟩] :=
  have h := C7_list_round_trip [(167772160, 8), (3232235520, 16)]
    [(3232235520, 16), (167772160, 8)]
    (by decide) (by unfold disjointRules; decide) (List.Perm.swap _ _ _)
  ⟨h.1, h.2.1⟩

/-! ## Formatting and parsing an address -/

theorem Split_no_sep (sep : Char) :
    ∀ xs : List Char, sep ∉ xs → Split sep xs = [xs] := by
  intro xs
  induction xs with
  | nil => intro _; rfl
  | cons c cs ih =>
    intro h
    have hc : c ≠ sep := fun e => h (e ▸ List.mem_cons_self _ _)
    have hcs : sep ∉ cs := fun e => h (List.mem_cons_of_mem _ e)
    simp [Split, hc, ih hcs]

theorem Split_append (sep : Char) (ys : List Char) :
    ∀ xs : List Char, sep ∉ xs → Split sep (xs ++ sep :: ys) = xs :: Split sep ys := by
  intro xs
  induction xs with
  | nil => intro _; simp [Split]
  | cons c cs ih =>
    intro h
    have hc : c ≠ sep := fun e => h (e ▸ List.mem_cons_self _ _)
    have hcs : sep ∉ cs := fun e => h (List.mem_cons_of_mem _ e)
    simp [Split, hc, ih hcs]

theorem octet_text : ∀ b, b < 256 →
    (Atoi (Nat.repr b).toList = (b : Int) ∧ ('.' ∈ (Nat.repr b).toList) = False) := by
  decide!

theorem toU64_octet (b : Nat) (h : b < 256) : toU64 (b : Int) = b := by
  unfold toU64
  omega

theorem shlU_octet (b k : Nat) (h : b < 256) (hk : k ≤ 24) : shlU b k = b * 2 ^ k := by
  unfold shlU
  rw [if_neg (by omega), Nat.shiftLeft_eq]
  apply Nat.mod_eq_of_lt
  calc b * 2 ^ k < 256 * 2 ^ k := Nat.mul_lt_mul_of_pos_right h (Nat.pow_pos (by norm_num))
    _ ≤ 256 * 2 ^ 24 := Nat.mul_le_mul_left _ (Nat.pow_le_pow_right (by norm_num) hk)
    _ < 2 ^ 64 := by norm_num

theorem and_255 (x : Nat) : x &&& 255 = x % 256 := by
  have := Nat.and_pow_two_sub_one_eq_mod x 8
  simpa using this

theorem ip2int_int2ip (v : Nat) (h : v < 2 ^ 32) : ip2int (int2ip v) = some v := by
  have hb0 : v % 256 < 256 := Nat.mod_lt _ (by norm_num)
  have hb1 : v / 2 ^ 8 % 256 < 256 := Nat.mod_lt _ (by norm_num)
  have hb2 : v / 2 ^ 16 % 256 < 256 := Nat.mod_lt _ (by norm_num)
  have hb3 : v / 2 ^ 24 % 256 < 256 := Nat.mod_lt _ (by norm_num)
  have n0 : '.' ∉ (Nat.repr (v % 256)).toList := fun e => (octet_text _ hb0).2 ▸ e
  have n1 : '.' ∉ (Nat.repr (v / 2 ^ 8 % 256)).toList := fun e => (octet_text _ hb1).2 ▸ e
  have n2 : '.' ∉ (Nat.repr (v / 2 ^ 16 % 256)).toList := fun e => (octet_text _ hb2).2 ▸ e
  have n3 : '.' ∉ (Nat.repr (v / 2 ^ 24 % 256)).toList := fun e => (octet_text _ hb3).2 ▸ e
  have hl : (int2ip v).toList =
      (Nat.repr (v / 2 ^ 24 % 256)).toList ++ '.' :: ((Nat.repr (v / 2 ^ 16 % 256)).toList ++
        '.' :: ((Nat.repr (v / 2 ^ 8 % 256)).toList ++ '.' :: (Nat.repr (v % 256)).toList)) := by
    unfold int2ip shrU
    simp only [show ¬ 64 ≤ 8 by norm_num, show ¬ 64 ≤ 16 by norm_num,
      show ¬ 64 ≤ 24 by norm_num, if_false, and_255, Nat.shiftRight_eq_div_pow,
      String.toList, String.data_append, List.append_assoc]
    rfl
  unfold ip2int
  rw [hl, Split_append _ _ _ n3, Split_append _ _ _ n2, Split_append _ _ _ n1,
    Split_no_sep _ _ n0]
  simp only [(octet_text _ hb0).1, (octet_text _ hb1).1, (octet_text _ hb2).1,
    (octet_text _ hb3).1, toU64_octet _ hb0, toU64_octet _ hb1, toU64_octet _ hb2,
    toU64_octet _ hb3, shlU_octet _ 24 hb3 (by norm_num), shlU_octet _ 16 hb2 (by norm_num),
    shlU_octet _ 8 hb1 (by norm_num), Option.some.injEq]
  norm_num at h ⊢
  omega

/-! ## Tries built by Insert and Delete -/

theorem fullAt_new (n : Nat) : fullAt (n + 1) blackNode.new :=
  ⟨fun _ h => (by cases h), fun _ h => (by cases h)⟩

theorem fullAt_insertPath (p : List Bool) :
    ∀ (n : Nat) (t : blackNode), p.length ≤ n → (fullAt n t ∨ t = blackNode.new) →
      fullAt n (insertPath p t) := by
  induction p with
  | nil =>
    intro n t _ h
    cases t with
    | mk l r d c =>
      cases n with
      | zero => rfl
      | succ n =>
        rcases h with h | h
        · exact h
        · cases h; exact fullAt_new n
  | cons b p ih =>
    intro n t hn h
    simp only [List.length_cons] at hn
    obtain ⟨m, rfl⟩ : ∃ m, n = m + 1 := ⟨n - 1, by omega⟩
    cases t with
    | mk l r d c =>
      have hl : ∀ x, l = some x → fullAt m x := by
        intro x hx
        rcases h with h | h
        · exact h.1 x hx
        · cases h; cases hx
      have hr : ∀ x, r = some x → fullAt m x := by
        intro x hx
        rcases h with h | h
        · exact h.2 x hx
        · cases h; cases hx
      cases b
      · refine ⟨?_, hr⟩
        intro x hx
        cases hx
        apply ih m _ (by omega)
        cases l with
        | none => exact Or.inr rfl
        | some y => exact Or.inl (hl y rfl)
      · refine ⟨hl, ?_⟩
        intro x hx
        cases hx
        apply ih m _ (by omega)
        cases r with
        | none => exact Or.inr rfl
        | some y => exact Or.inl (hr y rfl)

theorem fullAt_of_cut (p : List Bool) :
    ∀ (n : Nat) (t x : blackNode), walkPath p t = Walk.cut x → fullAt n t → fullAt n x := by
  induction p with
  | nil => intro n t x h _; cases h
  | cons b p ih =>
    intro n t x h hf
    cases t with
    | mk l r d c =>
      cases b
      · cases l with
        | none => simp [walkPath] at h
        | some y =>
          simp only [walkPath] at h
          cases hw : walkPath p y with
          | absent => rw [hw] at h; cases h
          | nocut =>
            rw [hw] at h
            by_cases hc : (r.isSome || d) = true
            · simp only [hc, if_true, Walk.cut.injEq] at h
              subst h
              cases n with
              | zero => exact hf
              | succ n => exact ⟨fun _ e => (by cases e), hf.2⟩
            · simp [hc] at h
          | cut z =>
            rw [hw] at h
            simp only [Walk.cut.injEq] at h
            subst h
            cases n with
            | zero => exact hf
            | succ n =>
              refine ⟨?_, hf.2⟩
              intro x hx
              cases hx
              exact ih n y _ hw (hf.1 y rfl)
      · cases r with
        | none => simp [walkPath] at h
        | some y =>
          simp only [walkPath] at h
          cases hw : walkPath p y with
          | absent => rw [hw] at h; cases h
          | nocut =>
            rw [hw] at h
            by_cases hc : l.isSome = true
            · simp only [hc, if_true, Walk.cut.injEq] at h
              subst h
              cases n with
              | zero => exact hf
              | succ n => exact ⟨hf.1, fun _ e => by cases e⟩
            · simp [hc] at h
          | cut z =>
            rw [hw] at h
            simp only [Walk.cut.injEq] at h
            subst h
            cases n with
            | zero => exact hf
            | succ n =>
              refine ⟨hf.1, ?_⟩
              intro x hx
              cases hx
              exact ih n y _ hw (hf.2 y rfl)

theorem fullAt_deletePath (p : List Bool) (n : Nat) (t : blackNode) (h : fullAt (n + 1) t) :
    fullAt (n + 1) (deletePath p t) := by
  unfold deletePath
  cases hw : walkPath p t with
  | absent => exact h
  | nocut => exact fullAt_new n
  | cut x => exact fullAt_of_cut p _ t x hw h

theorem fullAt_runOps :
    ∀ (ops : List Op) (t : blackNode), (∀ op ∈ ops, op.bit ≤ 32) → fullAt 32 t →
      fullAt 32 (runOps ops t) := by
  intro ops
  induction ops with
  | nil => intro t _ h; exact h
  | cons op ops ih =>
    intro t hops h
    have hb := hops op (List.mem_cons_self _ _)
    apply ih _ (fun o ho => hops o (List.mem_cons_of_mem _ ho))
    cases op with
    | insert v b =>
      show fullAt 32 (t.InsertRule v b)
      rw [InsertRule_eq]
      exact fullAt_insertPath _ 32 t (by rw [length_rulePath v b hb]; exact hb) (Or.inl h)
    | delete v b =>
      show fullAt 32 (t.DeleteRule v b)
      rw [DeleteRule_eq]
      exact fullAt_deletePath _ 31 t h

/-! ## A lookup that misses -/

theorem lookPath_miss (q : List Bool) :
    ∀ t : blackNode, (lookPath q t).2 = false → (lookPath q t).1 = t := by
  induction q with
  | nil => intro t h; cases t; simp [lookPath] at h
  | cons b q ih =>
    intro t h
    cases t with
    | mk l r d c =>
      cases d
      · cases b
        · cases l with
          | none => rfl
          | some x =>
            simp only [lookPath, Bool.false_eq_true, if_false] at h ⊢
            rw [ih x h]
        · cases r with
          | none => rfl
          | some x =>
            simp only [lookPath, Bool.false_eq_true, if_false] at h ⊢
            rw [ih x h]
      · cases b <;> simp [lookPath] at h

theorem lookPath_true_terminal (q : List Bool) :
    ∀ t : blackNode, fullAt q.length t → (lookPath q t).2 = true →
      ∃ k c, k ≤ q.length ∧ (q.take k, c) ∈ terminals t := by
  induction q with
  | nil =>
    intro t hf _
    cases t with
    | mk l r d c =>
      have hd : d = true := hf
      subst hd
      exact ⟨0, c, Nat.le_refl _, by simp [terminals_mk]⟩
  | cons b q ih =>
    intro t hf h
    cases t with
    | mk l r d c =>
      cases d
      · cases b
        · cases l with
          | none => simp [lookPath] at h
          | some x =>
            simp only [lookPath, Bool.false_eq_true, if_false] at h
            obtain ⟨k, c', hk, hm⟩ := ih x (hf.1 x rfl) h
            refine ⟨k + 1, c', by simp only [List.length_cons]; omega, ?_⟩
            rw [terminals_mk]
            simp only [List.take_succ_cons, List.mem_append, List.mem_map, Option.getD_some]
            exact Or.inl (Or.inr ⟨(q.take k, c'), hm, rfl⟩)
        · cases r with
          | none => simp [lookPath] at h
          | some x =>
            simp only [lookPath, Bool.false_eq_true, if_false] at h
            obtain ⟨k, c', hk, hm⟩ := ih x (hf.2 x rfl) h
            refine ⟨k + 1, c', by simp only [List.length_cons]; omega, ?_⟩
            rw [terminals_mk]
            simp only [List.take_succ_cons, List.mem_append, List.mem_map, Option.getD_some]
            exact Or.inr ⟨(q.take k, c'), hm, rfl⟩
      · exact ⟨0, c, Nat.zero_le _, by simp [terminals_mk]⟩

/-- C6. Lookup miss: for a trie built from the empty root by any sequence of
`Insert` and `Delete` calls with prefix lengths in `[0, 32]`, and a 32-bit
address `ip` that no entry of `List` covers, `Look` returns false and the trie,
every counter included, is unchanged. -/
theorem C6_lookup_miss (ops : List Op) (ip : Nat) (hops : ∀ op ∈ ops, op.bit ≤ 32)
    (hip : ip < 2 ^ 32)
    (hmiss : ∀ e ∈ (runOps ops blackNode.new).List [] 0 32, covers e ip = false) :
    (runOps ops blackNode.new).Look ip = (runOps ops blackNode.new, false) := by
  have hfull : fullAt 32 (runOps ops blackNode.new) :=
    fullAt_runOps ops _ hops (fullAt_new 31)
  have hres : ((runOps ops blackNode.new).Look ip).2 = false := by
    cases hr : ((runOps ops blackNode.new).Look ip).2 with
    | false => rfl
    | true =>
      exfalso
      rw [Look_eq] at hr
      have hlen := length_lookBits ip 32
      obtain ⟨k, c, hk, hm⟩ := lookPath_true_terminal (lookBits ip 32) _ (by rw [hlen]; exact hfull) hr
      rw [hlen] at hk
      have hmem : listEntry 0 32 ((lookBits ip 32).take k) c ∈
          (runOps ops blackNode.new).List [] 0 32 := by
        rw [List_eq_terminals, List.nil_append]
        exact List.mem_map.mpr ⟨_, hm, rfl⟩
      have hcov := hmiss _ hmem
      rw [← rulePath_eq_take ip k hk, listEntry_rulePath ip k c hip hk] at hcov
      have hlt : (ip >>> (32 - k)) <<< (32 - k) < 2 ^ 32 := by
        rw [Nat.shiftRight_eq_div_pow, Nat.shiftLeft_eq]
        exact lt_of_le_of_lt (Nat.div_mul_le_self _ _) hip
      have hsh : ((ip >>> (32 - k)) <<< (32 - k)) >>> (32 - k) = ip >>> (32 - k) := by
        rw [Nat.shiftLeft_eq, Nat.shiftRight_eq_div_pow ((ip >>> (32 - k)) * 2 ^ (32 - k)),
          Nat.mul_div_cancel _ (Nat.pow_pos (by norm_num))]
      simp [covers, ip2int_int2ip _ hlt, hsh] at hcov
  have hsame : ((runOps ops blackNode.new).Look ip).1 = runOps ops blackNode.new := by
    rw [Look_eq] at hres ⊢
    exact lookPath_miss _ _ hres
  exact Prod.ext hsame hres

/-- C6 on the trie left by `Insert(10.0.0.0/8)`, `Insert(10.128.0.0/9)`,
`Delete(10.128.0.0/9)`, `Insert(192.168.0.0/16)`, looked up with `11.0.0.0`. -/
theorem C6_lookup_miss_witness :
    (runOps [Op.insert 167772160 8, Op.insert 176160768 9, Op.delete 176160768 9,
        Op.insert 3232235520 16] blackNode.new).Look 184549376 =
      (runOps [Op.insert 167772160 8, Op.insert 176160768 9, Op.delete 176160768 9,
        Op.insert 3232235520 16] blackNode.new, false) :=
  C6_lookup_miss [Op.insert 167772160 8, Op.insert 176160768 9, Op.delete 176160768 9,
    Op.insert 3232235520 16] 184549376 (by decide) (by decide) (by decide)

/-! ## Parsing a well-formed address -/

theorem octet_slash : ∀ b, b < 256 → ('/' ∈ (Nat.repr b).toList) = False := by
  decide!

theorem octet_decimal : ∀ b, b < 256 →
    ((Nat.repr b).toList.all Char.isDigit = true ∧ digitsVal (Nat.repr b).toList = b ∧
      (0 < b → (Nat.repr b).toList.head? ≠ some '0') ∧ (b = 0 → Nat.repr b = "0")) := by
  decide!

theorem cutSlash_none : ∀ xs : List Char, '/' ∉ xs → cutSlash xs = none := by
  intro xs
  induction xs with
  | nil => intro _; rfl
  | cons c cs ih =>
    intro h
    have hc : c ≠ '/' := fun e => h (e ▸ List.mem_cons_self _ _)
    have hcs : '/' ∉ cs := fun e => h (List.mem_cons_of_mem _ e)
    simp [cutSlash, hc, ih hcs]

theorem cutSlash_append (ys : List Char) :
    ∀ xs : List Char, '/' ∉ xs → cutSlash (xs ++ '/' :: ys) = some (xs, ys) := by
  intro xs
  induction xs with
  | nil => intro _; simp [cutSlash]
  | cons c cs ih =>
    intro h
    have hc : c ≠ '/' := fun e => h (e ▸ List.mem_cons_self _ _)
    have hcs : '/' ∉ cs := fun e => h (List.mem_cons_of_mem _ e)
    simp [cutSlash, hc, ih hcs]

theorem dotted_toList (b0 b1 b2 b3 : Nat) :
    (dotted b0 b1 b2 b3).toList =
      (Nat.repr b0).toList ++ '.' :: ((Nat.repr b1).toList ++
        '.' :: ((Nat.repr b2).toList ++ '.' :: (Nat.repr b3).toList)) := by
  unfold dotted
  simp only [String.toList, String.data_append, List.append_assoc]
  rfl

theorem dotted_no_slash (b0 b1 b2 b3 : Nat) (h0 : b0 < 256) (h1 : b1 < 256) (h2 : b2 < 256)
    (h3 : b3 < 256) : '/' ∉ (dotted b0 b1 b2 b3).toList := by
  have n0 : '/' ∉ (Nat.repr b0).toList := fun e => (octet_slash _ h0) ▸ e
  have n1 : '/' ∉ (Nat.repr b1).toList := fun e => (octet_slash _ h1) ▸ e
  have n2 : '/' ∉ (Nat.repr b2).toList := fun e => (octet_slash _ h2) ▸ e
  have n3 : '/' ∉ (Nat.repr b3).toList := fun e => (octet_slash _ h3) ▸ e
  rw [dotted_toList]
  simp only [List.mem_append, List.mem_cons, not_or]
  exact ⟨n0, by decide, n1, by decide, n2, by decide, n3⟩

theorem ip2int_dotted (b0 b1 b2 b3 : Nat) (h0 : b0 < 256) (h1 : b1 < 256) (h2 : b2 < 256)
    (h3 : b3 < 256) :
    ip2int (dotted b0 b1 b2 b3) = some (b0 * 2 ^ 24 + b1 * 2 ^ 16 + b2 * 2 ^ 8 + b3) := by
  have n0 : '.' ∉ (Nat.repr b0).toList := fun e => (octet_text _ h0).2 ▸ e
  have n1 : '.' ∉ (Nat.repr b1).toList := fun e => (octet_text _ h1).2 ▸ e
  have n2 : '.' ∉ (Nat.repr b2).toList := fun e => (octet_text _ h2).2 ▸ e
  have n3 : '.' ∉ (Nat.repr b3).toList := fun e => (octet_text _ h3).2 ▸ e
  unfold ip2int
  rw [dotted_toList, Split_append _ _ _ n0, Split_append _ _ _ n1, Split_append _ _ _ n2,
    Split_no_sep _ _ n3]
  simp only [(octet_text _ h0).1, (octet_text _ h1).1, (octet_text _ h2).1,
    (octet_text _ h3).1, toU64_octet _ h0, toU64_octet _ h1, toU64_octet _ h2,
    toU64_octet _ h3, shlU_octet _ 24 h0 (by norm_num), shlU_octet _ 16 h1 (by norm_num),
    shlU_octet _ 8 h2 (by norm_num), Option.some.injEq]
  norm_num
  omega

theorem octets_or_eq_sum (b0 b1 b2 b3 : Nat) (h1 : b1 < 256) (h2 : b2 < 256) (h3 : b3 < 256) :
    b0 <<< 24 ||| b1 <<< 16 ||| b2 <<< 8 ||| b3 =
      b0 * 2 ^ 24 + b1 * 2 ^ 16 + b2 * 2 ^ 8 + b3 := by
  simp only [Nat.shiftLeft_eq]
  have e1 : b0 * 2 ^ 24 ||| b1 * 2 ^ 16 = b0 * 2 ^ 24 + b1 * 2 ^ 16 := by
    have := Nat.mul_add_lt_is_or (show b1 * 2 ^ 16 < 2 ^ 24 by omega) b0
    rw [Nat.mul_comm (2 ^ 24) b0] at this
    exact this.symm
  have e2 : (b0 * 2 ^ 24 + b1 * 2 ^ 16) ||| b2 * 2 ^ 8 =
      b0 * 2 ^ 24 + b1 * 2 ^ 16 + b2 * 2 ^ 8 := by
    have := Nat.mul_add_lt_is_or (show b2 * 2 ^ 8 < 2 ^ 16 by omega) (b0 * 2 ^ 8 + b1)
    have e : 2 ^ 16 * (b0 * 2 ^ 8 + b1) = b0 * 2 ^ 24 + b1 * 2 ^ 16 := by omega
    rw [e] at this
    exact this.symm
  have e3 : (b0 * 2 ^ 24 + b1 * 2 ^ 16 + b2 * 2 ^ 8) ||| b3 =
      b0 * 2 ^ 24 + b1 * 2 ^ 16 + b2 * 2 ^ 8 + b3 := by
    have := Nat.mul_add_lt_is_or (show b3 < 2 ^ 8 by omega) (b0 * 2 ^ 16 + b1 * 2 ^ 8 + b2)
    have e : 2 ^ 8 * (b0 * 2 ^ 16 + b1 * 2 ^ 8 + b2) =
        b0 * 2 ^ 24 + b1 * 2 ^ 16 + b2 * 2 ^ 8 := by omega
    rw [e] at this
    exact this.symm
  rw [e1, e2, e3]

/-- C11. Value of a parsed address: for `b0..b3 ≤ 255` and `N ≤ 32` written in
decimal, `ip2intbit("b0.b1.b2.b3/N")` returns
`(b0<<24 | b1<<16 | b2<<8 | b3, N)`, `ip2intbit("b0.b1.b2.b3")` returns the same
value with prefix length 32, and the value is below `2^32`. -/
theorem C11_parse_value (b0 b1 b2 b3 N : Nat) (h0 : b0 ≤ 255) (h1 : b1 ≤ 255) (h2 : b2 ≤ 255)
    (h3 : b3 ≤ 255) (hN : N ≤ 32) :
    ip2intbit (dotted b0 b1 b2 b3 ++ "/" ++ Nat.repr N) =
      some (b0 <<< 24 ||| b1 <<< 16 ||| b2 <<< 8 ||| b3, N) ∧
    ip2intbit (dotted b0 b1 b2 b3) =
      some (b0 <<< 24 ||| b1 <<< 16 ||| b2 <<< 8 ||| b3, 32) ∧
    b0 <<< 24 ||| b1 <<< 16 ||| b2 <<< 8 ||| b3 < 2 ^ 32 := by
  have hs := dotted_no_slash b0 b1 b2 b3 (by omega) (by omega) (by omega) (by omega)
  have hv := ip2int_dotted b0 b1 b2 b3 (by omega) (by omega) (by omega) (by omega)
  rw [octets_or_eq_sum b0 b1 b2 b3 (by omega) (by omega) (by omega)]
  refine ⟨?_, ?_, by omega⟩
  · have hl : (dotted b0 b1 b2 b3 ++ "/" ++ Nat.repr N).toList =
        (dotted b0 b1 b2 b3).toList ++ '/' :: (Nat.repr N).toList := by
      simp only [String.toList, String.data_append, List.append_assoc]
      rfl
    unfold ip2intbit
    rw [hl, cutSlash_append _ _ hs]
    have hm : String.mk (dotted b0 b1 b2 b3).toList = dotted b0 b1 b2 b3 := rfl
    simp only [hm, hv, Option.map_some', (octet_text N (by omega)).1,
      toU64_octet N (by omega)]
  · unfold ip2intbit
    rw [cutSlash_none _ hs]
    simp only [hv, Option.map_some']

/-- C11 at the text `192.168.5.0/24`. -/
theorem C11_parse_value_witness :
    ip2intbit "192.168.5.0/24" = some (3232236800, 24) ∧
    ip2intbit "192.168.5.0" = some (3232236800, 32) :=
  have h := C11_parse_value 192 168 5 0 24 (by decide) (by decide) (by decide) (by decide)
    (by decide)
  ⟨h.1, h.2.1⟩

/-! ## Formatting is the inverse of parsing -/

theorem int2ip_octets (b0 b1 b2 b3 : Nat) (h0 : b0 < 256) (h1 : b1 < 256) (h2 : b2 < 256)
    (h3 : b3 < 256) :
    int2ip (b0 * 2 ^ 24 + b1 * 2 ^ 16 + b2 * 2 ^ 8 + b3) = dotted b0 b1 b2 b3 := by
  have e0 : (b0 * 2 ^ 24 + b1 * 2 ^ 16 + b2 * 2 ^ 8 + b3) % 256 = b3 := by omega
  have e1 : (b0 * 2 ^ 24 + b1 * 2 ^ 16 + b2 * 2 ^ 8 + b3) / 2 ^ 8 % 256 = b2 := by omega
  have e2 : (b0 * 2 ^ 24 + b1 * 2 ^ 16 + b2 * 2 ^ 8 + b3) / 2 ^ 16 % 256 = b1 := by omega
  have e3 : (b0 * 2 ^ 24 + b1 * 2 ^ 16 + b2 * 2 ^ 8 + b3) / 2 ^ 24 % 256 = b0 := by omega
  unfold int2ip shrU dotted
  simp only [show ¬ 64 ≤ 8 by norm_num, show ¬ 64 ≤ 16 by norm_num,
    show ¬ 64 ≤ 24 by norm_num, if_false, and_255, Nat.shiftRight_eq_div_pow, e0, e1, e2, e3]

/-- C12. Formatting is the inverse of parsing: `ip2int(int2ip(v)) = v` for
every `v < 2^32`; for `b0..b3 ≤ 255`, `int2ip(b0<<24 | b1<<16 | b2<<8 | b3)` is
the text `b0.b1.b2.b3`; and the decimal form of an octet consists of digits
with the value of the octet and has no leading zero. -/
theorem C12_format_parse_inverse :
    (∀ v, v < 2 ^ 32 → ip2int (int2ip v) = some v) ∧
    (∀ b0 b1 b2 b3, b0 ≤ 255 → b1 ≤ 255 → b2 ≤ 255 → b3 ≤ 255 →
      int2ip (b0 <<< 24 ||| b1 <<< 16 ||| b2 <<< 8 ||| b3) = dotted b0 b1 b2 b3) ∧
    (∀ b, b ≤ 255 →
      (Nat.repr b).toList.all Char.isDigit = true ∧ digitsVal (Nat.repr b).toList = b ∧
      (0 < b → (Nat.repr b).toList.head? ≠ some '0') ∧ (b = 0 → Nat.repr b = "0")) := by
  refine ⟨ip2int_int2ip, ?_, ?_⟩
  · intro b0 b1 b2 b3 h0 h1 h2 h3
    rw [octets_or_eq_sum b0 b1 b2 b3 (by omega) (by omega) (by omega)]
    exact int2ip_octets b0 b1 b2 b3 (by omega) (by omega) (by omega) (by omega)
  · intro b hb
    exact octet_decimal b (by omega)

/-- C12 at the address `10.1.2.3`. -/
theorem C12_format_parse_inverse_witness :
    ip2int (int2ip 167838211) = some 167838211 ∧
    int2ip (10 <<< 24 ||| 1 <<< 16 ||| 2 <<< 8 ||| 3) = "10.1.2.3" :=
  ⟨C12_format_parse_inverse.1 167838211 (by decide),
   C12_format_parse_inverse.2.1 10 1 2 3 (by decide) (by decide) (by decide) (by decide)⟩

/-! ## No dead leaves -/

theorem Live.insertPath_new (p : List Bool) : Live (insertPath p blackNode.new) := by
  induction p with
  | nil =>
    exact Live.mk none none true 0 (Or.inl rfl) (fun _ h => (by cases h))
      (fun _ h => (by cases h))
  | cons b p ih =>
    cases b
    · refine Live.mk (some (insertPath p blackNode.new)) none false 0
        (Or.inr (Or.inl (by simp))) ?_ (fun _ h => (by cases h))
      intro x hx
      cases hx
      exact ih
    · refine Live.mk none (some (insertPath p blackNode.new)) false 0
        (Or.inr (Or.inr (by simp))) (fun _ h => (by cases h)) ?_
      intro x hx
      cases hx
      exact ih

theorem Live.insertPath_getD (p : List Bool)
    (ih : ∀ t : blackNode, Live t → Live (insertPath p t)) (l : Option blackNode)
    (hl : ∀ x, l = some x → Live x) : Live (insertPath p (l.getD blackNode.new)) := by
  cases l with
  | none => exact Live.insertPath_new p
  | some y => exact ih y (hl y rfl)

theorem Live.of_insertPath (p : List Bool) :
    ∀ t : blackNode, Live t → Live (insertPath p t) := by
  induction p with
  | nil =>
    intro t h
    cases h with
    | mk l r d c _ hl hr => exact Live.mk l r true c (Or.inl rfl) hl hr
  | cons b p ih =>
    intro t h
    cases h with
    | mk l r d c _ hl hr =>
      cases b
      · refine Live.mk _ r d c (Or.inr (Or.inl (by simp))) ?_ hr
        intro x hx
        cases hx
        exact Live.insertPath_getD p ih l hl
      · refine Live.mk l _ d c (Or.inr (Or.inr (by simp))) hl ?_
        intro x hx
        cases hx
        exact Live.insertPath_getD p ih r hr

theorem NoDead.empty_root : NoDead blackNode.new :=
  ⟨fun _ h => (by cases h), fun _ h => (by cases h)⟩

theorem NoDead.after_insertPath (p : List Bool) (t : blackNode) (h : NoDead t) :
    NoDead (insertPath p t) := by
  cases t with
  | mk l r d c =>
    rcases p with _ | ⟨b, p⟩
    · exact h
    · cases b
      · refine ⟨?_, h.2⟩
        intro x hx
        cases hx
        exact Live.insertPath_getD p (Live.of_insertPath p) l h.1
      · refine ⟨h.1, ?_⟩
        intro x hx
        cases hx
        exact Live.insertPath_getD p (Live.of_insertPath p) r h.2

theorem Live.of_cut (p : List Bool) :
    ∀ (t x : blackNode), walkPath p t = Walk.cut x → Live t → Live x := by
  induction p with
  | nil => intro t x h _; cases h
  | cons b p ih =>
    intro t x h hl
    cases hl with
    | mk l r d c _ hL hR =>
      cases b
      · cases l with
        | none => simp [walkPath] at h
        | some y =>
          simp only [walkPath] at h
          cases hw : walkPath p y with
          | absent => rw [hw] at h; cases h
          | nocut =>
            rw [hw] at h
            by_cases hc : (r.isSome || d) = true
            · simp only [hc, if_true, Walk.cut.injEq] at h
              subst h
              refine Live.mk none r d c ?_ (fun _ e => (by cases e)) hR
              cases d
              · cases r with
                | none => simp at hc
                | some z => exact Or.inr (Or.inr (by simp))
              · exact Or.inl rfl
            · simp [hc] at h
          | cut z =>
            rw [hw] at h
            simp only [Walk.cut.injEq] at h
            subst h
            refine Live.mk (some z) r d c (Or.inr (Or.inl (by simp))) ?_ hR
            intro x hx
            cases hx
            exact ih y _ hw (hL y rfl)
      · cases r with
        | none => simp [walkPath] at h
        | some y =>
          simp only [walkPath] at h
          cases hw : walkPath p y with
          | absent => rw [hw] at h; cases h
          | nocut =>
            rw [hw] at h
            by_cases hc : l.isSome = true
            · simp only [hc, if_true, Walk.cut.injEq] at h
              subst h
              refine Live.mk l none d c ?_ hL (fun _ e => (by cases e))
              cases l with
              | none => simp at hc
              | some z => exact Or.inr (Or.inl (by simp))
            · simp [hc] at h
          | cut z =>
            rw [hw] at h
            simp only [Walk.cut.injEq] at h
            subst h
            refine Live.mk l (some z) d c (Or.inr (Or.inr (by simp))) hL ?_
            intro x hx
            cases hx
            exact ih y _ hw (hR y rfl)

theorem NoDead.after_cut (p : List Bool) (t x : blackNode) (h : walkPath p t = Walk.cut x)
    (hn : NoDead t) : NoDead x := by
  cases t with
  | mk l r d c =>
    rcases p with _ | ⟨b, p⟩
    · cases h
    · cases b
      · cases l with
        | none => simp [walkPath] at h
        | some y =>
          simp only [walkPath] at h
          cases hw : walkPath p y with
          | absent => rw [hw] at h; cases h
          | nocut =>
            rw [hw] at h
            by_cases hc : (r.isSome || d) = true
            · simp only [hc, if_true, Walk.cut.injEq] at h
              subst h
              exact ⟨fun _ e => (by cases e), hn.2⟩
            · simp [hc] at h
          | cut z =>
            rw [hw] at h
            simp only [Walk.cut.injEq] at h
            subst h
            refine ⟨?_, hn.2⟩
            intro x hx
            cases hx
            exact Live.of_cut p y _ hw (hn.1 y rfl)
      · cases r with
        | none => simp [walkPath] at h
        | some y =>
          simp only [walkPath] at h
          cases hw : walkPath p y with
          | absent => rw [hw] at h; cases h
          | nocut =>
            rw [hw] at h
            by_cases hc : l.isSome = true
            · simp only [hc, if_true, Walk.cut.injEq] at h
              subst h
              exact ⟨hn.1, fun _ e => (by cases e)⟩
            · simp [hc] at h
          | cut z =>
            rw [hw] at h
            simp only [Walk.cut.injEq] at h
            subst h
            refine ⟨hn.1, ?_⟩
            intro x hx
            cases hx
            exact Live.of_cut p y _ hw (hn.2 y rfl)

theorem NoDead.of_deletePath (p : List Bool) (t : blackNode) (h : NoDead t) :
    NoDead (deletePath p t) := by
  unfold deletePath
  cases hw : walkPath p t with
  | absent => exact h
  | nocut => exact NoDead.empty_root
  | cut x => exact NoDead.after_cut p t x hw h

theorem Live.of_lookPath (q : List Bool) :
    ∀ t : blackNode, Live t → Live (lookPath q t).1 := by
  induction q with
  | nil =>
    intro t h
    cases h with
    | mk l r d c h0 hl hr => exact Live.mk l r d _ h0 hl hr
  | cons b q ih =>
    intro t h
    cases h with
    | mk l r d c h0 hl hr =>
      cases d
      · cases b
        · cases l with
          | none => exact Live.mk none r false c h0 hl hr
          | some y =>
            simp only [lookPath, Bool.false_eq_true, if_false]
            refine Live.mk _ r false c (Or.inr (Or.inl (by simp))) ?_ hr
            intro x hx
            cases hx
            exact ih y (hl y rfl)
        · cases r with
          | none => exact Live.mk l none false c h0 hl hr
          | some y =>
            simp only [lookPath, Bool.false_eq_true, if_false]
            refine Live.mk l _ false c (Or.inr (Or.inr (by simp))) hl ?_
            intro x hx
            cases hx
            exact ih y (hr y rfl)
      · cases b <;> exact Live.mk l r true _ h0 hl hr

theorem NoDead.after_lookPath (q : List Bool) (t : blackNode) (h : NoDead t) :
    NoDead (lookPath q t).1 := by
  cases t with
  | mk l r d c =>
    rcases q with _ | ⟨b, q⟩
    · exact h
    · cases d
      · cases b
        · cases l with
          | none => exact h
          | some y =>
            simp only [lookPath, Bool.false_eq_true, if_false]
            refine ⟨?_, h.2⟩
            intro x hx
            cases hx
            exact Live.of_lookPath q y (h.1 y rfl)
        · cases r with
          | none => exact h
          | some y =>
            simp only [lookPath, Bool.false_eq_true, if_false]
            refine ⟨h.1, ?_⟩
            intro x hx
            cases hx
            exact Live.of_lookPath q y (h.2 y rfl)
      · cases b <;> exact h

theorem NoDead.of_runCalls :
    ∀ (cs : List Call) (t : blackNode), NoDead t → NoDead (runCalls cs t) := by
  intro cs
  induction cs with
  | nil => intro t h; exact h
  | cons c cs ih =>
    intro t h
    apply ih
    cases c with
    | insert v b =>
      show NoDead (t.InsertRule v b)
      rw [InsertRule_eq]
      exact NoDead.after_insertPath _ t h
    | delete v b =>
      show NoDead (t.DeleteRule v b)
      rw [DeleteRule_eq]
      exact NoDead.of_deletePath _ t h
    | look ip =>
      show NoDead (t.Look ip).1
      rw [Look_eq]
      exact NoDead.after_lookPath _ t h

theorem Live.of_nodeAt (q : List Bool) :
    ∀ (t n : blackNode), Live t → nodeAt q t = some n → Live n := by
  induction q with
  | nil =>
    intro t n h hn
    simp only [nodeAt, Option.some.injEq] at hn
    exact hn ▸ h
  | cons b q ih =>
    intro t n h hn
    cases h with
    | mk l r d c _ hl hr =>
      cases b
      · cases l with
        | none => simp [nodeAt, blackNode.child, blackNode.Left] at hn
        | some y =>
          simp only [nodeAt, blackNode.child, blackNode.Left] at hn
          exact ih y n (hl y rfl) hn
      · cases r with
        | none => simp [nodeAt, blackNode.child, blackNode.Right] at hn
        | some y =>
          simp only [nodeAt, blackNode.child, blackNode.Right] at hn
          exact ih y n (hr y rfl) hn

theorem NoDead.live_of_nodeAt (q : List Bool) (t n : blackNode) (h : NoDead t) (hq : q ≠ [])
    (hn : nodeAt q t = some n) : Live n := by
  rcases q with _ | ⟨b, q⟩
  · exact absurd rfl hq
  · cases t with
    | mk l r d c =>
      cases b
      · cases l with
        | none => simp [nodeAt, blackNode.child, blackNode.Left] at hn
        | some y =>
          simp only [nodeAt, blackNode.child, blackNode.Left] at hn
          exact Live.of_nodeAt q y n (h.1 y rfl) hn
      · cases r with
        | none => simp [nodeAt, blackNode.child, blackNode.Right] at hn
        | some y =>
          simp only [nodeAt, blackNode.child, blackNode.Right] at hn
          exact Live.of_nodeAt q y n (h.2 y rfl) hn

/-- C13. No dead leaves: in every trie reached from the empty root by any
sequence of `Insert`, `Delete` and `Look` calls, every node other than the
root is terminal or has at least one child. -/
theorem C13_no_dead_leaves (cs : List Call) (q : List Bool) (n : blackNode) (hq : q ≠ [])
    (hn : nodeAt q (runCalls cs blackNode.new) = some n) :
    n.Data = true ∨ n.Left ≠ none ∨ n.Right ≠ none := by
  have h := NoDead.live_of_nodeAt q _ n (NoDead.of_runCalls cs _ NoDead.empty_root) hq hn
  cases h with
  | mk l r d c h0 _ _ => exact h0

/-- C13 after `Insert(10.0.0.0/8)`, `Insert(10.128.0.0/9)`, `Look(10.0.0.1)`,
`Delete(10.128.0.0/9)`, `Insert(128.0.0.0/2)`, at the node below the root on
the right. -/
theorem C13_no_dead_leaves_witness :
    (blackNode.mk (some (.mk none none true 0)) none false 0).Data = true ∨
      (blackNode.mk (some (.mk none none true 0)) none false 0).Left ≠ none ∨
      (blackNode.mk (some (.mk none none true 0)) none false 0).Right ≠ none :=
  C13_no_dead_leaves
    [Call.insert 167772160 8, Call.insert 176160768 9, Call.look 167772161,
      Call.delete 176160768 9, Call.insert 2147483648 2]
    [true] (.mk (some (.mk none none true 0)) none false 0) (by decide) rfl

/-! ## Depth bound -/

theorem depthLe_new (n : Nat) : depthLe n blackNode.new := by
  cases n with
  | zero => exact ⟨rfl, rfl⟩
  | succ n => exact ⟨fun _ h => (by cases h), fun _ h => (by cases h)⟩

theorem depthLe_getD {n : Nat} {l : Option blackNode} (h : ∀ x, l = some x → depthLe n x) :
    depthLe n (l.getD blackNode.new) := by
  cases l with
  | none => exact depthLe_new n
  | some y => exact h y rfl

theorem depthLe_insertPath (p : List Bool) :
    ∀ (n : Nat) (t : blackNode), p.length ≤ n → depthLe n t → depthLe n (insertPath p t) := by
  induction p with
  | nil =>
    intro n t _ h
    cases t with
    | mk l r d c =>
      cases n with
      | zero => exact h
      | succ n => exact h
  | cons b p ih =>
    intro n t hn h
    simp only [List.length_cons] at hn
    obtain ⟨m, rfl⟩ : ∃ m, n = m + 1 := ⟨n - 1, by omega⟩
    cases t with
    | mk l r d c =>
      cases b
      · refine ⟨?_, h.2⟩
        intro x hx
        cases hx
        exact ih m _ (by omega) (depthLe_getD h.1)
      · refine ⟨h.1, ?_⟩
        intro x hx
        cases hx
        exact ih m _ (by omega) (depthLe_getD h.2)

theorem depthLe_of_cut (p : List Bool) :
    ∀ (n : Nat) (t x : blackNode), walkPath p t = Walk.cut x → depthLe n t → depthLe n x := by
  induction p with
  | nil => intro n t x h _; cases h
  | cons b p ih =>
    intro n t x h hf
    cases t with
    | mk l r d c =>
      cases b
      · cases l with
        | none => simp [walkPath] at h
        | some y =>
          cases n with
          | zero => exact absurd hf.1 (by simp [blackNode.Left])
          | succ n =>
            simp only [walkPath] at h
            cases hw : walkPath p y with
            | absent => rw [hw] at h; cases h
            | nocut =>
              rw [hw] at h
              by_cases hc : (r.isSome || d) = true
              · simp only [hc, if_true, Walk.cut.injEq] at h
                subst h
                exact ⟨fun _ e => (by cases e), hf.2⟩
              · simp [hc] at h
            | cut z =>
              rw [hw] at h
              simp only [Walk.cut.injEq] at h
              subst h
              refine ⟨?_, hf.2⟩
              intro x hx
              cases hx
              exact ih n y _ hw (hf.1 y rfl)
      · cases r with
        | none => simp [walkPath] at h
        | some y =>
          cases n with
          | zero => exact absurd hf.2 (by simp [blackNode.Right])
          | succ n =>
            simp only [walkPath] at h
            cases hw : walkPath p y with
            | absent => rw [hw] at h; cases h
            | nocut =>
              rw [hw] at h
              by_cases hc : l.isSome = true
              · simp only [hc, if_true, Walk.cut.injEq] at h
                subst h
                exact ⟨hf.1, fun _ e => (by cases e)⟩
              · simp [hc] at h
            | cut z =>
              rw [hw] at h
              simp only [Walk.cut.injEq] at h
              subst h
              refine ⟨hf.1, ?_⟩
              intro x hx
              cases hx
              exact ih n y _ hw (hf.2 y rfl)

theorem depthLe_deletePath (p : List Bool) (n : Nat) (t : blackNode) (h : depthLe n t) :
    depthLe n (deletePath p t) := by
  unfold deletePath
  cases hw : walkPath p t with
  | absent => exact h
  | nocut => exact depthLe_new n
  | cut x => exact depthLe_of_cut p n t x hw h

theorem depthLe_runOps :
    ∀ (ops : List Op) (t : blackNode), (∀ op ∈ ops, op.bit ≤ 32) → depthLe 32 t →
      depthLe 32 (runOps ops t) := by
  intro ops
  induction ops with
  | nil => intro t _ h; exact h
  | cons op ops ih =>
    intro t hops h
    have hb := hops op (List.mem_cons_self _ _)
    apply ih _ (fun o ho => hops o (List.mem_cons_of_mem _ ho))
    cases op with
    | insert v b =>
      show depthLe 32 (t.InsertRule v b)
      rw [InsertRule_eq]
      exact depthLe_insertPath _ 32 t (by rw [length_rulePath v b hb]; exact hb) h
    | delete v b =>
      show depthLe 32 (t.DeleteRule v b)
      rw [DeleteRule_eq]
      exact depthLe_deletePath _ 32 t h

theorem length_le_of_depthLe (q : List Bool) :
    ∀ (k : Nat) (t n : blackNode), depthLe k t → nodeAt q t = some n → q.length ≤ k := by
  induction q with
  | nil => intro k t n _ _; exact Nat.zero_le _
  | cons b q ih =>
    intro k t n h hn
    cases t with
    | mk l r d c =>
      cases b
      · cases l with
        | none => simp [nodeAt, blackNode.child, blackNode.Left] at hn
        | some y =>
          simp only [nodeAt, blackNode.child, blackNode.Left] at hn
          cases k with
          | zero => exact absurd h.1 (by simp [blackNode.Left])
          | succ k =>
            have := ih k y n (h.1 y rfl) hn
            simp only [List.length_cons]
            omega
      · cases r with
        | none => simp [nodeAt, blackNode.child, blackNode.Right] at hn
        | some y =>
          simp only [nodeAt, blackNode.child, blackNode.Right] at hn
          cases k with
          | zero => exact absurd h.2 (by simp [blackNode.Right])
          | succ k =>
            have := ih k y n (h.2 y rfl) hn
            simp only [List.length_cons]
            omega

theorem terminal_of_fullAt (q : List Bool) :
    ∀ (t n : blackNode), fullAt q.length t → nodeAt q t = some n → n.Data = true := by
  induction q with
  | nil =>
    intro t n h hn
    simp only [nodeAt, Option.some.injEq] at hn
    subst hn
    exact h
  | cons b q ih =>
    intro t n h hn
    cases t with
    | mk l r d c =>
      cases b
      · cases l with
        | none => simp [nodeAt, blackNode.child, blackNode.Left] at hn
        | some y =>
          simp only [nodeAt, blackNode.child, blackNode.Left] at hn
          exact ih y n (h.1 y rfl) hn
      · cases r with
        | none => simp [nodeAt, blackNode.child, blackNode.Right] at hn
        | some y =>
          simp only [nodeAt, blackNode.child, blackNode.Right] at hn
          exact ih y n (h.2 y rfl) hn

/-- C14. Depth bound: in every trie reached from the empty root by `Insert`
and `Delete` calls with prefix lengths in `[0, 32]`, no node lies deeper than
32 edges below the root, and every node at depth 32 is terminal. -/
theorem C14_depth_bound (ops : List Op) (q : List Bool) (n : blackNode)
    (hops : ∀ op ∈ ops, op.bit ≤ 32) (hn : nodeAt q (runOps ops blackNode.new) = some n) :
    q.length ≤ 32 ∧ (q.length = 32 → n.Data = true) := by
  refine ⟨length_le_of_depthLe q 32 _ n (depthLe_runOps ops _ hops (depthLe_new 32)) hn, ?_⟩
  intro hq
  have hf := fullAt_runOps ops _ hops (fullAt_new 31)
  rw [← hq] at hf
  exact terminal_of_fullAt q _ n hf hn

/-- C14 after `Insert(10.0.0.0/8)`, `Insert(10.128.0.0/9)` and
`Delete(10.128.0.0/9)`, `Insert(192.0.0.0/4)`, at the node of the last rule. -/
theorem C14_depth_bound_witness :
    (rulePath 3221225472 4).length ≤ 32 ∧
    ((rulePath 3221225472 4).length = 32 → (blackNode.mk none none true 0).Data = true) :=
  C14_depth_bound [Op.insert 167772160 8, Op.insert 176160768 9, Op.delete 176160768 9,
    Op.insert 3221225472 4] (rulePath 3221225472 4) (.mk none none true 0) (by decide) rfl

/-! ## Delete on a missing path -/

theorem walkPath_absent (p : List Bool) :
    ∀ t : blackNode, nodeAt p t = none → walkPath p t = Walk.absent := by
  induction p with
  | nil => intro t h; simp [nodeAt] at h
  | cons b p ih =>
    intro t h
    cases t with
    | mk l r d c =>
      cases b
      · cases l with
        | none => rfl
        | some y =>
          simp only [nodeAt, blackNode.child, blackNode.Left] at h
          simp [walkPath, ih y h]
      · cases r with
        | none => rfl
        | some y =>
          simp only [nodeAt, blackNode.child, blackNode.Right] at h
          simp [walkPath, ih y h]

theorem deletePath_absent (p : List Bool) (t : blackNode) (h : nodeAt p t = none) :
    deletePath p t = t := by
  unfold deletePath
  rw [walkPath_absent p t h]

/-- C17. Delete is a no-op when the path is missing: for every trie `t` and
every rule `(a, p)`, if some edge on the path of the first `p` bits of `a` is
absent in `t` (no node stands at the end of that path), `Delete(a/p)` leaves
`t` as it is: children, terminal flags and counters of every node. -/
theorem C17_delete_missing_path (t : blackNode) (a p : Nat)
    (h : nodeAt (rulePath a p) t = none) : t.DeleteRule a p = t := by
  rw [DeleteRule_eq]
  exact deletePath_absent _ t h

/-- C17 on a trie holding `10.0.0.0/8` with counter 3, for the rule
`10.128.0.0/9`. -/
theorem C17_delete_missing_path_witness :
    ((blackNode.new.InsertRule 167772160 8).Look 167772161).1.DeleteRule 176160768 9 =
      ((blackNode.new.InsertRule 167772160 8).Look 167772161).1 :=
  C17_delete_missing_path _ 176160768 9 rfl

/-! ## A lookup that follows all 32 bits -/

theorem lookPath_full (p : List Bool) :
    ∀ (t n : blackNode), nodeAt p t = some n →
      (∀ j, j < p.length → ∀ m, nodeAt (p.take j) t = some m → m.Data = false) →
      lookPath p t = (bumpAt p t, true) := by
  induction p with
  | nil =>
    intro t n _ _
    cases t
    rfl
  | cons b p ih =>
    intro t n h hmin
    cases t with
    | mk l r d c =>
      have hd0 : d = false := hmin 0 (by simp) (.mk l r d c) rfl
      subst hd0
      cases b
      · cases l with
        | none => simp [nodeAt, blackNode.child, blackNode.Left] at h
        | some x =>
          simp only [nodeAt, blackNode.child, blackNode.Left] at h
          have hmin' : ∀ j, j < p.length → ∀ m, nodeAt (p.take j) x = some m →
              m.Data = false := by
            intro j hj m hm
            exact hmin (j + 1) (by simp; omega) m
              (by simpa [nodeAt, blackNode.child, blackNode.Left] using hm)
          simp [lookPath, bumpAt, ih x n h hmin']
      · cases r with
        | none => simp [nodeAt, blackNode.child, blackNode.Right] at h
        | some x =>
          simp only [nodeAt, blackNode.child, blackNode.Right] at h
          have hmin' : ∀ j, j < p.length → ∀ m, nodeAt (p.take j) x = some m →
              m.Data = false := by
            intro j hj m hm
            exact hmin (j + 1) (by simp; omega) m
              (by simpa [nodeAt, blackNode.child, blackNode.Right] using hm)
          simp [lookPath, bumpAt, ih x n h hmin']

/-- C16, as stated, fails: on the trie left by `Insert("0.0.0.0/33")`, `Look`
of `0.0.0.0` follows all 32 bits with every edge present and no terminal node
at depths 0 to 31, the node reached at depth 32 is not terminal, and `Look`
returns true. -/
theorem C16_full_depth_returns_true :
    (blackNode.new.Insert "0.0.0.0/33").map (fun t =>
        ((nodeAt (lookBits 0 32) t).map blackNode.Data,
          (List.range 32).all (fun j =>
            decide ((nodeAt ((lookBits 0 32).take j) t).map blackNode.Data = some false)),
          (t.Look 0).2)) =
      some (some false, true, true) := by
  decide!

/-- C16, amended. If `Look` follows all 32 bits of `ip` with every edge
present and no terminal node at depths 0 to 31, it replaces the counter of the
node reached at depth 32 by `Count++` (the `uint64` increment, `Count + 1` as
long as the counter is below `2^64 - 1`), changes nothing else, and returns
true whatever the terminal flag of that node is. -/
theorem C16_full_depth_lookup (t : blackNode) (ip : Nat) (n : blackNode)
    (hn : nodeAt (lookBits ip 32) t = some n)
    (hmin : ∀ j, j < 32 → ∀ m, nodeAt ((lookBits ip 32).take j) t = some m → m.Data = false) :
    (t.Look ip).2 = true ∧
    (t.Look ip).1 = bumpAt (lookBits ip 32) t ∧
    nodeAt (lookBits ip 32) (t.Look ip).1 =
      some (.mk n.Left n.Right n.Data (incU n.Count)) ∧
    (n.Count + 1 < 2 ^ 64 → incU n.Count = n.Count + 1) ∧
    (∀ q, q ≠ lookBits ip 32 →
      (nodeAt q (t.Look ip).1).map blackNode.label = (nodeAt q t).map blackNode.label) := by
  have hlen := length_lookBits ip 32
  have hl : t.Look ip = (bumpAt (lookBits ip 32) t, true) := by
    rw [Look_eq]
    exact lookPath_full _ t n hn (by rw [hlen]; exact hmin)
  rw [hl]
  refine ⟨rfl, rfl, nodeAt_bumpAt_self _ t n hn, ?_, ?_⟩
  · intro h
    unfold incU
    exact Nat.mod_eq_of_lt h
  · intro q hq
    exact nodeAt_bumpAt_ne _ q t hq

theorem nodeAt_insertPath_new_take (p : List Bool) :
    ∀ (j : Nat) (m : blackNode), j < p.length →
      nodeAt (p.take j) (insertPath p blackNode.new) = some m → m.Data = false := by
  induction p with
  | nil => intro j m hj _; simp at hj
  | cons b p ih =>
    intro j m hj hm
    cases j with
    | zero =>
      cases b <;>
        (simp only [List.take_zero, nodeAt, Option.some.injEq] at hm
         subst hm
         rfl)
    | succ j =>
      simp only [List.length_cons] at hj
      cases b
      · have e : insertPath (false :: p) blackNode.new =
            .mk (some (insertPath p blackNode.new)) none false 0 := rfl
        rw [e] at hm
        simp only [List.take_succ_cons, nodeAt, blackNode.child, blackNode.Left] at hm
        exact ih j m (by omega) hm
      · have e : insertPath (true :: p) blackNode.new =
            .mk none (some (insertPath p blackNode.new)) false 0 := rfl
        rw [e] at hm
        simp only [List.take_succ_cons, nodeAt, blackNode.child, blackNode.Right] at hm
        exact ih j m (by omega) hm

/-- C16, amended, on the trie left by `Insert(0.0.0.0/33)`, looked up with
`0.0.0.0`: the node at depth 32 is not terminal, its counter goes from 0 to 1
and the result is true. -/
theorem C16_full_depth_lookup_witness :
    ((blackNode.new.InsertRule 0 33).Look 0).2 = true ∧
    (nodeAt (lookBits 0 32) ((blackNode.new.InsertRule 0 33).Look 0).1).map blackNode.label =
      some (false, 1) :=
  have hp : rulePath 0 33 = lookBits 0 32 ++ [false] := by decide
  have h := C16_full_depth_lookup (blackNode.new.InsertRule 0 33) 0
    (.mk (some (.mk none none true 0)) none false 0)
    (by rw [InsertRule_eq]; rfl)
    (by
      intro j hj m hm
      rw [InsertRule_eq, hp] at hm
      have e : (lookBits 0 32).take j = (lookBits 0 32 ++ [false]).take j := by
        rw [List.take_append_of_le_length (by rw [length_lookBits]; omega)]
      rw [e] at hm
      exact nodeAt_insertPath_new_take _ j m (by simp [length_lookBits]; omega) hm)
  ⟨h.1, by rw [h.2.2.1]; rfl⟩

/-! ## The terminal nodes after Delete -/

theorem mem_terminals_mk {l r : Option blackNode} {d : Bool} {c : Nat} {e : List Bool × Nat} :
    e ∈ terminals (.mk l r d c) ↔
      (d = true ∧ e = ([], c)) ∨
      (∃ e' ∈ terminals (l.getD blackNode.new), e = (false :: e'.1, e'.2)) ∨
      (∃ e' ∈ terminals (r.getD blackNode.new), e = (true :: e'.1, e'.2)) := by
  rw [terminals_mk]
  simp only [List.mem_append, List.mem_map]
  constructor
  · rintro ((h | ⟨e', he', rfl⟩) | ⟨e', he', rfl⟩)
    · cases d
      · simp at h
      · simp only [if_true, List.mem_singleton] at h
        exact Or.inl ⟨rfl, h⟩
    · exact Or.inr (Or.inl ⟨e', he', rfl⟩)
    · exact Or.inr (Or.inr ⟨e', he', rfl⟩)
  · rintro (⟨hd, rfl⟩ | ⟨e', he', rfl⟩ | ⟨e', he', rfl⟩)
    · subst hd
      exact Or.inl (Or.inl (by simp))
    · exact Or.inl (Or.inr ⟨e', he', rfl⟩)
    · exact Or.inr ⟨e', he', rfl⟩

theorem walk_nocut_left {p : List Bool} {y : blackNode} {r : Option blackNode} {d : Bool}
    {c : Nat} (h : walkPath (false :: p) (.mk (some y) r d c) = Walk.nocut) :
    walkPath p y = Walk.nocut ∧ r = none ∧ d = false := by
  simp only [walkPath] at h
  cases hw : walkPath p y with
  | absent => rw [hw] at h; cases h
  | cut z => rw [hw] at h; cases h
  | nocut =>
    rw [hw] at h
    cases r with
    | some z => simp at h
    | none =>
      cases d
      · exact ⟨rfl, rfl, rfl⟩
      · simp at h

theorem walk_nocut_right {p : List Bool} {y : blackNode} {l : Option blackNode} {d : Bool}
    {c : Nat} (h : walkPath (true :: p) (.mk l (some y) d c) = Walk.nocut) :
    walkPath p y = Walk.nocut ∧ l = none := by
  simp only [walkPath] at h
  cases hw : walkPath p y with
  | absent => rw [hw] at h; cases h
  | cut z => rw [hw] at h; cases h
  | nocut =>
    rw [hw] at h
    cases l with
    | some z => simp at h
    | none => exact ⟨rfl, rfl⟩

theorem walk_cut_left {p : List Bool} {y x : blackNode} {r : Option blackNode} {d : Bool}
    {c : Nat} (h : walkPath (false :: p) (.mk (some y) r d c) = Walk.cut x) :
    (∃ z, walkPath p y = Walk.cut z ∧ x = .mk (some z) r d c) ∨
    (walkPath p y = Walk.nocut ∧ x = .mk none r d c) := by
  simp only [walkPath] at h
  cases hw : walkPath p y with
  | absent => rw [hw] at h; cases h
  | cut z =>
    rw [hw] at h
    simp only [Walk.cut.injEq] at h
    exact Or.inl ⟨z, rfl, h.symm⟩
  | nocut =>
    rw [hw] at h
    by_cases hc : (r.isSome || d) = true
    · simp only [hc, if_true, Walk.cut.injEq] at h
      exact Or.inr ⟨rfl, h.symm⟩
    · simp [hc] at h

theorem walk_cut_right {p : List Bool} {y x : blackNode} {l : Option blackNode} {d : Bool}
    {c : Nat} (h : walkPath (true :: p) (.mk l (some y) d c) = Walk.cut x) :
    (∃ z, walkPath p y = Walk.cut z ∧ x = .mk l (some z) d c) ∨
    (walkPath p y = Walk.nocut ∧ x = .mk l none d c) := by
  simp only [walkPath] at h
  cases hw : walkPath p y with
  | absent => rw [hw] at h; cases h
  | cut z =>
    rw [hw] at h
    simp only [Walk.cut.injEq] at h
    exact Or.inl ⟨z, rfl, h.symm⟩
  | nocut =>
    rw [hw] at h
    by_cases hc : l.isSome = true
    · simp only [hc, if_true, Walk.cut.injEq] at h
      exact Or.inr ⟨rfl, h.symm⟩
    · simp [hc] at h

theorem terminals_nocut (p : List Bool) :
    ∀ t : blackNode, walkPath p t = Walk.nocut →
      ∀ e ∈ terminals t, e.1 <+: p ∨ p <+: e.1 := by
  induction p with
  | nil => intro t _ e _; exact Or.inr (List.nil_prefix)
  | cons b p ih =>
    intro t h e he
    cases t with
    | mk l r d c =>
      cases b
      · cases l with
        | none => simp [walkPath] at h
        | some y =>
          obtain ⟨hw, hr, hd⟩ := walk_nocut_left h
          subst hr; subst hd
          rcases mem_terminals_mk.mp he with ⟨hd, _⟩ | ⟨e', he', rfl⟩ | ⟨e', he', rfl⟩
          · cases hd
          · rcases ih y hw e' he' with h1 | h1
            · exact Or.inl ((List.prefix_cons_inj false).mpr h1)
            · exact Or.inr ((List.prefix_cons_inj false).mpr h1)
          · simp [terminals_new] at he'
      · cases r with
        | none => simp [walkPath] at h
        | some y =>
          obtain ⟨hw, hl⟩ := walk_nocut_right h
          subst hl
          rcases mem_terminals_mk.mp he with ⟨_, rfl⟩ | ⟨e', he', rfl⟩ | ⟨e', he', rfl⟩
          · exact Or.inl (List.nil_prefix)
          · simp [terminals_new] at he'
          · rcases ih y hw e' he' with h1 | h1
            · exact Or.inl ((List.prefix_cons_inj true).mpr h1)
            · exact Or.inr ((List.prefix_cons_inj true).mpr h1)

theorem terminals_cut_sublist (p : List Bool) :
    ∀ t x : blackNode, walkPath p t = Walk.cut x →
      (terminals x).Sublist (terminals t) := by
  induction p with
  | nil => intro t x h; cases h
  | cons b p ih =>
    intro t x h
    cases t with
    | mk l r d c =>
      cases b
      · cases l with
        | none => simp [walkPath] at h
        | some y =>
          rcases walk_cut_left h with ⟨z, hw, rfl⟩ | ⟨_, rfl⟩
          · rw [terminals_mk, terminals_mk]
            exact ((List.Sublist.refl _).append ((ih y z hw).map _)).append (List.Sublist.refl _)
          · rw [terminals_mk, terminals_mk]
            refine ((List.Sublist.refl _).append ?_).append (List.Sublist.refl _)
            simp [terminals_new]
      · cases r with
        | none => simp [walkPath] at h
        | some y =>
          rcases walk_cut_right h with ⟨z, hw, rfl⟩ | ⟨_, rfl⟩
          · rw [terminals_mk, terminals_mk]
            exact (List.Sublist.refl _).append ((ih y z hw).map _)
          · rw [terminals_mk, terminals_mk]
            refine (List.Sublist.refl _).append ?_
            simp [terminals_new]

theorem terminals_cut_keeps (p : List Bool) :
    ∀ t x : blackNode, walkPath p t = Walk.cut x →
      ∀ e ∈ terminals t, ¬ e.1 <+: p → ¬ p <+: e.1 → e ∈ terminals x := by
  induction p with
  | nil => intro t x h; cases h
  | cons b p ih =>
    intro t x h e he h1 h2
    cases t with
    | mk l r d c =>
      cases b
      · cases l with
        | none => simp [walkPath] at h
        | some y =>
          rcases mem_terminals_mk.mp he with ⟨hd, rfl⟩ | ⟨e', he', rfl⟩ | ⟨e', he', rfl⟩
          · exact absurd (List.nil_prefix) h1
          · have h1' : ¬ e'.1 <+: p := fun k => h1 ((List.prefix_cons_inj false).mpr k)
            have h2' : ¬ p <+: e'.1 := fun k => h2 ((List.prefix_cons_inj false).mpr k)
            rcases walk_cut_left h with ⟨z, hw, rfl⟩ | ⟨hw, rfl⟩
            · exact mem_terminals_mk.mpr (Or.inr (Or.inl ⟨e', ih y z hw e' he' h1' h2', rfl⟩))
            · rcases terminals_nocut p y hw e' he' with k | k
              · exact absurd k h1'
              · exact absurd k h2'
          · rcases walk_cut_left h with ⟨z, hw, rfl⟩ | ⟨hw, rfl⟩
            · exact mem_terminals_mk.mpr (Or.inr (Or.inr ⟨e', he', rfl⟩))
            · exact mem_terminals_mk.mpr (Or.inr (Or.inr ⟨e', he', rfl⟩))
      · cases r with
        | none => simp [walkPath] at h
        | some y =>
          rcases mem_terminals_mk.mp he with ⟨hd, rfl⟩ | ⟨e', he', rfl⟩ | ⟨e', he', rfl⟩
          · exact absurd (List.nil_prefix) h1
          · rcases walk_cut_right h with ⟨z, hw, rfl⟩ | ⟨hw, rfl⟩
            · exact mem_terminals_mk.mpr (Or.inr (Or.inl ⟨e', he', rfl⟩))
            · exact mem_terminals_mk.mpr (Or.inr (Or.inl ⟨e', he', rfl⟩))
          · have h1' : ¬ e'.1 <+: p := fun k => h1 ((List.prefix_cons_inj true).mpr k)
            have h2' : ¬ p <+: e'.1 := fun k => h2 ((List.prefix_cons_inj true).mpr k)
            rcases walk_cut_right h with ⟨z, hw, rfl⟩ | ⟨hw, rfl⟩
            · exact mem_terminals_mk.mpr (Or.inr (Or.inr ⟨e', ih y z hw e' he' h1' h2', rfl⟩))
            · rcases terminals_nocut p y hw e' he' with k | k
              · exact absurd k h1'
              · exact absurd k h2'

theorem terminals_cut_removes (p : List Bool) :
    ∀ t x : blackNode, walkPath p t = Walk.cut x →
      ∀ e ∈ terminals x, ¬ p <+: e.1 := by
  induction p with
  | nil => intro t x h; cases h
  | cons b p ih =>
    intro t x h e he hp
    cases t with
    | mk l r d c =>
      cases b
      · cases l with
        | none => simp [walkPath] at h
        | some y =>
          rcases walk_cut_left h with ⟨z, hw, rfl⟩ | ⟨hw, rfl⟩
          · rcases mem_terminals_mk.mp he with ⟨_, rfl⟩ | ⟨e', he', rfl⟩ | ⟨e', he', rfl⟩
            · simp at hp
            · exact ih y z hw e' he' ((List.prefix_cons_inj false).mp hp)
            · simp [List.cons_prefix_cons] at hp
          · rcases mem_terminals_mk.mp he with ⟨_, rfl⟩ | ⟨e', he', rfl⟩ | ⟨e', he', rfl⟩
            · simp at hp
            · simp [terminals_new] at he'
            · simp [List.cons_prefix_cons] at hp
      · cases r with
        | none => simp [walkPath] at h
        | some y =>
          rcases walk_cut_right h with ⟨z, hw, rfl⟩ | ⟨hw, rfl⟩
          · rcases mem_terminals_mk.mp he with ⟨_, rfl⟩ | ⟨e', he', rfl⟩ | ⟨e', he', rfl⟩
            · simp at hp
            · simp [List.cons_prefix_cons] at hp
            · exact ih y z hw e' he' ((List.prefix_cons_inj true).mp hp)
          · rcases mem_terminals_mk.mp he with ⟨_, rfl⟩ | ⟨e', he', rfl⟩ | ⟨e', he', rfl⟩
            · simp at hp
            · simp [List.cons_prefix_cons] at hp
            · simp [terminals_new] at he'

theorem nodeAt_none_of_absent (p : List Bool) :
    ∀ t : blackNode, walkPath p t = Walk.absent → nodeAt p t = none := by
  induction p with
  | nil => intro t h; cases h
  | cons b p ih =>
    intro t h
    cases t with
    | mk l r d c =>
      cases b
      · cases l with
        | none => rfl
        | some y =>
          simp only [walkPath] at h
          simp only [nodeAt, blackNode.child, blackNode.Left]
          apply ih y
          cases hw : walkPath p y with
          | absent => rfl
          | cut z => rw [hw] at h; cases h
          | nocut => rw [hw] at h; by_cases hc : (r.isSome || d) = true <;> simp [hc] at h
      · cases r with
        | none => rfl
        | some y =>
          simp only [walkPath] at h
          simp only [nodeAt, blackNode.child, blackNode.Right]
          apply ih y
          cases hw : walkPath p y with
          | absent => rfl
          | cut z => rw [hw] at h; cases h
          | nocut => rw [hw] at h; by_cases hc : l.isSome = true <;> simp [hc] at h

theorem terminals_deletePath_sublist (p : List Bool) (t : blackNode) :
    (terminals (deletePath p t)).Sublist (terminals t) := by
  unfold deletePath
  cases hw : walkPath p t with
  | absent => exact List.Sublist.refl _
  | nocut => simp [terminals_new]
  | cut x => exact terminals_cut_sublist p t x hw

theorem terminals_deletePath_keeps (p : List Bool) (t : blackNode) (e : List Bool × Nat)
    (he : e ∈ terminals t) (h1 : ¬ e.1 <+: p) (h2 : ¬ p <+: e.1) :
    e ∈ terminals (deletePath p t) := by
  unfold deletePath
  cases hw : walkPath p t with
  | absent => exact he
  | nocut =>
    rcases terminals_nocut p t hw e he with k | k
    · exact absurd k h1
    · exact absurd k h2
  | cut x => exact terminals_cut_keeps p t x hw e he h1 h2

theorem terminals_deletePath_removes (p : List Bool) (t : blackNode)
    (hp : nodeAt p t ≠ none) (e : List Bool × Nat) (he : e ∈ terminals (deletePath p t)) :
    ¬ p <+: e.1 := by
  unfold deletePath at he
  cases hw : walkPath p t with
  | absent => exact absurd (nodeAt_none_of_absent p t hw) hp
  | nocut => rw [hw] at he; simp [terminals_new] at he
  | cut x => rw [hw] at he; exact terminals_cut_removes p t x hw e he

/-! ## Entries and paths in a trie of depth at most 32 -/

theorem pathVal_acc (q : List Bool) :
    ∀ pre : Nat, pathVal pre q = pre * 2 ^ q.length + pathVal 0 q := by
  induction q with
  | nil => intro pre; simp [pathVal]
  | cons b q ih =>
    intro pre
    rw [pathVal_cons, pathVal_cons, ih (2 * pre + b.toNat), ih (2 * 0 + b.toNat)]
    simp only [List.length_cons, Nat.pow_succ]
    ring

theorem pathVal_lt (q : List Bool) : pathVal 0 q < 2 ^ q.length := by
  induction q with
  | nil => simp [pathVal]
  | cons b q ih =>
    rw [pathVal_cons, pathVal_acc]
    simp only [List.length_cons, Nat.pow_succ]
    have hb : b.toNat ≤ 1 := Bool.toNat_le b
    have : (2 * 0 + b.toNat) * 2 ^ q.length ≤ 1 * 2 ^ q.length :=
      Nat.mul_le_mul_right _ (by omega)
    omega

theorem pathVal_inj (q : List Bool) :
    ∀ q' : List Bool, q.length = q'.length → pathVal 0 q = pathVal 0 q' → q = q' := by
  induction q with
  | nil =>
    intro q' hl _
    rcases q' with _ | ⟨b', q'⟩
    · rfl
    · simp at hl
  | cons b q ih =>
    intro q' hl hv
    rcases q' with _ | ⟨b', q'⟩
    · simp at hl
    · simp only [List.length_cons, Nat.add_right_cancel_iff] at hl
      rw [pathVal_cons, pathVal_cons, pathVal_acc q, pathVal_acc q', ← hl] at hv
      have h1 := pathVal_lt q
      have h2 := pathVal_lt q'
      rw [← hl] at h2
      have hpos : 0 < 2 ^ q.length := Nat.pow_pos (by norm_num)
      have hb : b = b' := by
        cases b <;> cases b'
        · rfl
        · simp only [Bool.toNat_false, Bool.toNat_true] at hv
          omega
        · simp only [Bool.toNat_false, Bool.toNat_true] at hv
          omega
        · rfl
      subst hb
      have hv' : pathVal 0 q = pathVal 0 q' := by omega
      rw [ih q' hl hv']

theorem pathAddr_eq (q : List Bool) : pathAddr q = pathVal 0 q * 2 ^ (32 - q.length) := by
  unfold pathAddr
  rw [Nat.shiftLeft_eq]

theorem pathAddr_lt (q : List Bool) (h : q.length ≤ 32) : pathAddr q < 2 ^ 32 := by
  rw [pathAddr_eq]
  have h1 : pathVal 0 q * 2 ^ (32 - q.length) < 2 ^ q.length * 2 ^ (32 - q.length) :=
    Nat.mul_lt_mul_of_pos_right (pathVal_lt q) (Nat.pow_pos (by norm_num))
  have h2 : 2 ^ q.length * 2 ^ (32 - q.length) = 2 ^ 32 := by
    rw [← Nat.pow_add]; congr 1; omega
  rw [h2] at h1
  exact h1

theorem entry_of_path (q : List Bool) (c : Nat) (h : q.length ≤ 32) :
    listEntry 0 32 q c = ⟨int2ip (pathAddr q), q.length, c⟩ := by
  rw [listEntry_eq q 0 32 c h (by norm_num) (by norm_num)]
  have e : 32 - (32 - q.length) = q.length := by omega
  rw [e]
  rfl

theorem rulePath_pathAddr (q : List Bool) (h : q.length ≤ 32) :
    rulePath (pathAddr q) q.length = q := by
  apply pathVal_inj
  · rw [length_rulePath _ _ h]
  · rw [rulePath_eq_take _ _ h, pathVal_take_lookBits _ _ 32 0 h (by norm_num),
      Nat.mod_eq_of_lt (pathAddr_lt q h), pathAddr_eq,
      Nat.mul_div_cancel _ (Nat.pow_pos (by norm_num))]
    simp

theorem take_rulePath (v : Nat) {p n : Nat} (hp : p ≤ n) (hn : n ≤ 32) :
    (rulePath v n).take p = rulePath v p := by
  rw [rulePath_eq_take v n hn, rulePath_eq_take v p (by omega), List.take_take,
    Nat.min_eq_left hp]

theorem prefix_of_top_bits (q : List Bool) (a p : Nat) (hq : q.length ≤ 32)
    (hp : p ≤ q.length) (h : pathAddr q >>> (32 - p) = a >>> (32 - p)) :
    rulePath a p <+: q := by
  have h1 : rulePath a p = rulePath (pathAddr q) p := by
    rw [rulePath_eq_take a p (by omega), rulePath_eq_take _ p (by omega)]
    exact (take_lookBits_congr p 32 (by omega) (by norm_num) h).symm
  rw [h1, ← take_rulePath (pathAddr q) hp hq, rulePath_pathAddr q hq]
  exact List.take_prefix _ _

theorem top_bits_of_comparable (q : List Bool) (a p : Nat) (ha : a < 2 ^ 32) (hp : p ≤ 32)
    (hq : q.length ≤ 32) (h : q <+: rulePath a p ∨ rulePath a p <+: q) :
    pathAddr q >>> (32 - min p q.length) = a >>> (32 - min p q.length) := by
  rcases h with h | h
  · have hl : q.length ≤ p := by
      have := h.length_le
      rwa [length_rulePath a p hp] at this
    have e : q = rulePath a q.length := by
      have := List.prefix_iff_eq_take.mp h
      rw [take_rulePath a hl hp] at this
      exact this
    have e2 : rulePath (pathAddr q) q.length = rulePath a q.length := by
      rw [rulePath_pathAddr q hq]
      exact e
    rw [Nat.min_eq_right hl]
    exact (rulePath_inj (pathAddr_lt q hq) hq ha hq e2).2
  · have hl : p ≤ q.length := by
      have := h.length_le
      rwa [length_rulePath a p hp] at this
    have e : rulePath a p = rulePath (pathAddr q) p := by
      have := List.prefix_iff_eq_take.mp h
      rw [length_rulePath a p hp] at this
      rw [this, ← take_rulePath (pathAddr q) hl hq, rulePath_pathAddr q hq]
    rw [Nat.min_eq_left hl]
    exact (rulePath_inj (pathAddr_lt q hq) hp ha hp e.symm).2

theorem terminals_length_le :
    ∀ (n : Nat) (t : blackNode), depthLe n t → ∀ e ∈ terminals t, e.1.length ≤ n := by
  intro n
  induction n with
  | zero =>
    intro t h e he
    cases t with
    | mk l r d c =>
      obtain ⟨hl, hr⟩ := h
      simp only [blackNode.Left, blackNode.Right] at hl hr
      subst hl; subst hr
      rcases mem_terminals_mk.mp he with ⟨_, rfl⟩ | ⟨e', he', rfl⟩ | ⟨e', he', rfl⟩
      · simp
      · simp [terminals_new] at he'
      · simp [terminals_new] at he'
  | succ n ih =>
    intro t h e he
    cases t with
    | mk l r d c =>
      rcases mem_terminals_mk.mp he with ⟨_, rfl⟩ | ⟨e', he', rfl⟩ | ⟨e', he', rfl⟩
      · simp
      · cases l with
        | none => simp [terminals_new] at he'
        | some y =>
          have := ih y (h.1 y rfl) e' he'
          simp only [List.length_cons]
          omega
      · cases r with
        | none => simp [terminals_new] at he'
        | some y =>
          have := ih y (h.2 y rfl) e' he'
          simp only [List.length_cons]
          omega

theorem mem_List_iff (t : blackNode) (e : blackInfo) :
    e ∈ t.List [] 0 32 ↔ ∃ x ∈ terminals t, listEntry 0 32 x.1 x.2 = e := by
  rw [List_eq_terminals, List.nil_append, List.mem_map]

/-! ## Delete removes the rule and what is nested beneath it -/

/-- C15, as stated for every trie, fails on a trie deeper than 32: after
`Insert("128.0.0.0/34")` and `Insert("0.0.0.0/1")` the path of `0.0.0.0/1`
exists, and after `Delete("0.0.0.0/1")` the `List` still holds the entry
`0.0.0.0` with mask 34 (the depth-34 node under `128.0.0.0`, whose address
`List` shifts out), which lies under `0.0.0.0/1`. -/
theorem C15_deep_trie_entry_remains :
    ((blackNode.new.Insert "128.0.0.0/34").bind (fun t => t.Insert "0.0.0.0/1")).map
        (fun t => ((nodeAt (rulePath 0 1) t).isSome,
          (t.Delete "0.0.0.0/1").map
            (fun u => (u.List [] 0 32).map (fun e => (e, under e 0 1))))) =
      some (true, some [(⟨"0.0.0.0", 34, 0⟩, true)]) := by
  decide!

/-- C15, amended. For every trie `t` of depth at most 32 and every rule
`(a, p)` with `p ≤ 32` whose whole bit path exists in `t`, after `Delete(a/p)`
the `List` holds no entry with mask at least `p` whose top `p` bits are those of
`a`: neither the rule nor any more specific rule under it. -/
theorem C15_delete_removes_subtree (t : blackNode) (a p : Nat) (hd : depthLe 32 t)
    (_hp : p ≤ 32) (hex : nodeAt (rulePath a p) t ≠ none) :
    ∀ e ∈ (t.DeleteRule a p).List [] 0 32, under e a p = false := by
  intro e he
  rw [DeleteRule_eq] at he
  obtain ⟨x, hx, rfl⟩ := (mem_List_iff _ _).mp he
  have hlen : x.1.length ≤ 32 :=
    terminals_length_le 32 t hd x ((terminals_deletePath_sublist _ t).subset hx)
  have hrem := terminals_deletePath_removes _ t hex x hx
  rw [entry_of_path x.1 x.2 hlen]
  cases hu : under ⟨int2ip (pathAddr x.1), x.1.length, x.2⟩ a p with
  | false => rfl
  | true =>
    exfalso
    simp only [under, ip2int_int2ip _ (pathAddr_lt x.1 hlen), Bool.and_eq_true,
      decide_eq_true_eq] at hu
    exact hrem (prefix_of_top_bits x.1 a p hlen hu.1 hu.2)

/-- C15, amended, on the trie holding `10.0.0.0/8`, `10.1.0.0/16` and
`192.168.0.0/16`, for the rule `10.0.0.0/8`: no entry left lies under it. -/
theorem C15_delete_removes_subtree_witness :
    (((insertAll [(167772160, 8), (167837696, 16), (3232235520, 16)]
        blackNode.new).DeleteRule 167772160 8).List [] 0 32).all
      (fun e => !under e 167772160 8) = true :=
  List.all_eq_true.mpr (fun e he => by
    rw [C15_delete_removes_subtree
      (insertAll [(167772160, 8), (167837696, 16), (3232235520, 16)] blackNode.new)
      167772160 8
      (depthLe_runOps
        [Op.insert 167772160 8, Op.insert 167837696 16, Op.insert 3232235520 16]
        blackNode.new (by decide) (depthLe_new 32))
      (by decide)
      (by rw [show rulePath 167772160 8 = [false, false, false, false, true, false,
        true, false] by decide]; exact fun h => Option.noConfusion h) e he]
    rfl)

/-! ## Delete keeps the unrelated rules -/

/-- C18, as stated for every trie, fails on a trie deeper than 32: after
`Insert("128.0.0.0/34")` the `List` holds the entry `0.0.0.0` with mask 34,
whose top bit differs from that of `128.0.0.0/1`, and `Delete("128.0.0.0/1")`
removes it. -/
theorem C18_deep_trie_entry_lost :
    (blackNode.new.Insert "128.0.0.0/34").map
        (fun t => ((t.List [] 0 32).map (fun s => (s, disjointEntry s 2147483648 1)),
          (t.Delete "128.0.0.0/1").map (fun u => u.List [] 0 32))) =
      some ([(⟨"0.0.0.0", 34, 0⟩, true)], some []) := by
  decide!

/-- C18, amended. For every trie `t` of depth at most 32, every rule `(a, p)`
with a 32-bit address and `p ≤ 32`, and every entry `s` of `List(t)` whose
prefix is disjoint from that of the rule: `s`, with its count, is an entry of
`List` after `Delete(a/p)`, and the `List` after the call is the `List` before
it with some entries left out, the others in the same order. -/
theorem C18_delete_keeps_disjoint (t : blackNode) (a p : Nat) (s : blackInfo)
    (hd : depthLe 32 t) (ha : a < 2 ^ 32) (hp : p ≤ 32) (hs : s ∈ t.List [] 0 32)
    (hdis : disjointEntry s a p = true) :
    s ∈ (t.DeleteRule a p).List [] 0 32 ∧
    ((t.DeleteRule a p).List [] 0 32).Sublist (t.List [] 0 32) := by
  rw [DeleteRule_eq]
  refine ⟨?_, ?_⟩
  · obtain ⟨x, hx, rfl⟩ := (mem_List_iff _ _).mp hs
    have hlen : x.1.length ≤ 32 := terminals_length_le 32 t hd x hx
    rw [entry_of_path x.1 x.2 hlen] at hdis
    simp only [disjointEntry, ip2int_int2ip _ (pathAddr_lt x.1 hlen), decide_eq_true_eq]
      at hdis
    have hinc : ¬ (x.1 <+: rulePath a p ∨ rulePath a p <+: x.1) :=
      fun h => hdis (top_bits_of_comparable x.1 a p ha hp hlen h)
    exact (mem_List_iff _ _).mpr ⟨x, terminals_deletePath_keeps _ t x hx
      (fun h => hinc (Or.inl h)) (fun h => hinc (Or.inr h)), rfl⟩
  · rw [List_eq_terminals, List_eq_terminals, List.nil_append, List.nil_append]
    exact (terminals_deletePath_sublist _ t).map _

/-- C18, amended, on the trie holding `10.0.0.0/8`, `10.1.0.0/16` and
`192.168.0.0/16`: deleting `10.0.0.0/8` keeps the entry `192.168.0.0/16`. -/
theorem C18_delete_keeps_disjoint_witness :
    (⟨"192.168.0.0", 16, 0⟩ : blackInfo) ∈
      ((insertAll [(167772160, 8), (167837696, 16), (3232235520, 16)]
        blackNode.new).DeleteRule 167772160 8).List [] 0 32 :=
  (C18_delete_keeps_disjoint
    (insertAll [(167772160, 8), (167837696, 16), (3232235520, 16)] blackNode.new) 167772160 8
    ⟨"192.168.0.0", 16, 0⟩
    (depthLe_runOps [Op.insert 167772160 8, Op.insert 167837696 16, Op.insert 3232235520 16]
      blackNode.new (by decide) (depthLe_new 32))
    (by decide) (by decide) (by decide!) (by decide!)).1

/-! ## Deleting a rule that is not stored -/

theorem NoDead.of_runOps :
    ∀ (ops : List Op) (t : blackNode), NoDead t → NoDead (runOps ops t) := by
  intro ops
  induction ops with
  | nil => intro t h; exact h
  | cons op ops ih =>
    intro t h
    apply ih
    cases op with
    | insert v b =>
      show NoDead (t.InsertRule v b)
      rw [InsertRule_eq]
      exact NoDead.after_insertPath _ t h
    | delete v b =>
      show NoDead (t.DeleteRule v b)
      rw [DeleteRule_eq]
      exact NoDead.of_deletePath _ t h

theorem Live.has_terminal {x : blackNode} (h : Live x) : ∃ e, e ∈ terminals x := by
  induction h with
  | mk l r d c h0 _ _ ihl ihr =>
    rcases h0 with hd | hl | hr
    · exact ⟨([], c), mem_terminals_mk.mpr (Or.inl ⟨hd, rfl⟩)⟩
    · cases l with
      | none => exact absurd rfl hl
      | some y =>
        obtain ⟨e, he⟩ := ihl y rfl
        exact ⟨(false :: e.1, e.2), mem_terminals_mk.mpr (Or.inr (Or.inl ⟨e, he, rfl⟩))⟩
    · cases r with
      | none => exact absurd rfl hr
      | some y =>
        obtain ⟨e, he⟩ := ihr y rfl
        exact ⟨(true :: e.1, e.2), mem_terminals_mk.mpr (Or.inr (Or.inr ⟨e, he, rfl⟩))⟩

theorem terminals_of_nodeAt (q : List Bool) :
    ∀ (t n : blackNode), nodeAt q t = some n →
      ∀ e ∈ terminals n, (q ++ e.1, e.2) ∈ terminals t := by
  induction q with
  | nil =>
    intro t n h e he
    simp only [nodeAt, Option.some.injEq] at h
    subst h
    exact he
  | cons b q ih =>
    intro t n h e he
    cases t with
    | mk l r d c =>
      cases b
      · cases l with
        | none => simp [nodeAt, blackNode.child, blackNode.Left] at h
        | some y =>
          simp only [nodeAt, blackNode.child, blackNode.Left] at h
          exact mem_terminals_mk.mpr (Or.inr (Or.inl ⟨(q ++ e.1, e.2), ih y n h e he, rfl⟩))
      · cases r with
        | none => simp [nodeAt, blackNode.child, blackNode.Right] at h
        | some y =>
          simp only [nodeAt, blackNode.child, blackNode.Right] at h
          exact mem_terminals_mk.mpr (Or.inr (Or.inr ⟨(q ++ e.1, e.2), ih y n h e he, rfl⟩))

theorem NoDead.at_node (q : List Bool) (t n : blackNode) (h : NoDead t)
    (hn : nodeAt q t = some n) : NoDead n := by
  rcases q with _ | ⟨b, q⟩
  · simp only [nodeAt, Option.some.injEq] at hn
    exact hn ▸ h
  · have hl := NoDead.live_of_nodeAt (b :: q) t n h (by simp) hn
    cases hl with
    | mk l r d c _ hL hR => exact ⟨hL, hR⟩

theorem deletePath_shrinks (p : List Bool) (t n : blackNode) (h : NoDead t)
    (hn : nodeAt p t = some n) (hc : n.Left ≠ none ∨ n.Right ≠ none) :
    (terminals (deletePath p t)).length < (terminals t).length := by
  have hnd := NoDead.at_node p t n h hn
  obtain ⟨e, he⟩ : ∃ e, e ∈ terminals n := by
    cases n with
    | mk l r d c =>
      rcases hc with hl | hr
      · cases l with
        | none => exact absurd rfl hl
        | some y =>
          obtain ⟨e, he⟩ := (hnd.1 y rfl).has_terminal
          exact ⟨(false :: e.1, e.2), mem_terminals_mk.mpr (Or.inr (Or.inl ⟨e, he, rfl⟩))⟩
      · cases r with
        | none => exact absurd rfl hr
        | some y =>
          obtain ⟨e, he⟩ := (hnd.2 y rfl).has_terminal
          exact ⟨(true :: e.1, e.2), mem_terminals_mk.mpr (Or.inr (Or.inr ⟨e, he, rfl⟩))⟩
  have hin := terminals_of_nodeAt p t n hn e he
  have hsub := terminals_deletePath_sublist p t
  have hne : nodeAt p t ≠ none := by rw [hn]; exact fun k => Option.noConfusion k
  have hout : (p ++ e.1, e.2) ∉ terminals (deletePath p t) :=
    fun k => terminals_deletePath_removes p t hne _ k (List.prefix_append _ _)
  rcases Nat.lt_or_ge (terminals (deletePath p t)).length (terminals t).length with hlt | hge
  · exact hlt
  · exact absurd (hsub.eq_of_length (Nat.le_antisymm hsub.length_le hge) ▸ hin) hout

/-- C19, as stated, fails: on the trie built by `Insert(10.1.0.0/16)`, the
rule `10.0.0.0/8` is not stored (no entry of `List` has mask 8 and its top 8
bits), yet `Delete(10.0.0.0/8)` empties the `List`. -/
theorem C19_interior_delete_changes_list :
    (((runOps [Op.insert 167837696 16] blackNode.new).List [] 0 32).map
        (fun e => (e, storedAs e 167772160 8)),
      ((runOps [Op.insert 167837696 16] blackNode.new).DeleteRule 167772160 8).List [] 0 32) =
      ([(⟨"10.1.0.0", 16, 0⟩, false)], []) := by
  decide!

/-- C19, amended. For a trie built from the empty root by `Insert` and
`Delete` calls with prefix lengths in `[0, 32]` and a rule `(a, p)` with a
32-bit address and `p ≤ 32` that `List` does not hold: when an edge of the path
of the rule is missing, `Delete(a/p)` leaves the trie, so the `List`, unchanged;
so it does when the node of the rule has no child; and when that node has a
child (the rule is an interior node of a more specific rule), `Delete(a/p)`
removes rules and the `List` gets shorter. -/
theorem C19_delete_unstored (ops : List Op) (a p : Nat)
    (_hops : ∀ op ∈ ops, op.bit ≤ 32) (ha : a < 2 ^ 32) (hp : p ≤ 32)
    (hns : ∀ e ∈ (runOps ops blackNode.new).List [] 0 32, storedAs e a p = false) :
    (nodeAt (rulePath a p) (runOps ops blackNode.new) = none →
      (runOps ops blackNode.new).DeleteRule a p = runOps ops blackNode.new) ∧
    (∀ n, nodeAt (rulePath a p) (runOps ops blackNode.new) = some n →
      n.Left = none → n.Right = none →
      ((runOps ops blackNode.new).DeleteRule a p).List [] 0 32 =
        (runOps ops blackNode.new).List [] 0 32) ∧
    (∀ n, nodeAt (rulePath a p) (runOps ops blackNode.new) = some n →
      (n.Left ≠ none ∨ n.Right ≠ none) →
      (((runOps ops blackNode.new).DeleteRule a p).List [] 0 32).length <
        ((runOps ops blackNode.new).List [] 0 32).length) := by
  have hnd : NoDead (runOps ops blackNode.new) := NoDead.of_runOps ops _ NoDead.empty_root
  refine ⟨fun h => (by rw [DeleteRule_eq]; exact deletePath_absent _ _ h), ?_, ?_⟩
  · intro n hn hl hr
    have hdata : n.Data = false := by
      cases hd : n.Data with
      | false => rfl
      | true =>
        exfalso
        have hmem : (rulePath a p ++ [], n.Count) ∈ terminals (runOps ops blackNode.new) := by
          apply terminals_of_nodeAt _ _ n hn ([], n.Count)
          cases n with
          | mk l r d c =>
            simp only [blackNode.Data] at hd
            exact mem_terminals_mk.mpr (Or.inl ⟨hd, rfl⟩)
        rw [List.append_nil] at hmem
        have hent := (mem_List_iff _ _).mpr ⟨_, hmem, rfl⟩
        have hst := hns _ hent
        rw [listEntry_rulePath a p n.Count ha hp] at hst
        have hlt : (a >>> (32 - p)) <<< (32 - p) < 2 ^ 32 := by
          rw [Nat.shiftRight_eq_div_pow, Nat.shiftLeft_eq]
          exact lt_of_le_of_lt (Nat.div_mul_le_self _ _) ha
        have hsh : ((a >>> (32 - p)) <<< (32 - p)) >>> (32 - p) = a >>> (32 - p) := by
          rw [Nat.shiftLeft_eq, Nat.shiftRight_eq_div_pow ((a >>> (32 - p)) * 2 ^ (32 - p)),
            Nat.mul_div_cancel _ (Nat.pow_pos (by norm_num))]
        simp [storedAs, ip2int_int2ip _ hlt, hsh] at hst
    have hroot : rulePath a p = [] := by
      by_contra hne
      have hlive := NoDead.live_of_nodeAt _ _ n hnd hne hn
      cases hlive with
      | mk l r d c h0 _ _ =>
        simp only [blackNode.Data, blackNode.Left, blackNode.Right] at hdata hl hr
        rcases h0 with h | h | h
        · rw [hdata] at h; cases h
        · exact h hl
        · exact h hr
    rw [hroot] at hn
    simp only [nodeAt, Option.some.injEq] at hn
    rw [DeleteRule_eq, hroot, hn]
    cases n with
    | mk l r d c =>
      simp only [blackNode.Data, blackNode.Left, blackNode.Right] at hdata hl hr
      subst hdata; subst hl; subst hr
      rfl
  · intro n hn hc
    rw [DeleteRule_eq, List_eq_terminals, List_eq_terminals, List.nil_append, List.nil_append,
      List.length_map, List.length_map]
    exact deletePath_shrinks _ _ n hnd hn hc

/-- C19, amended, on the trie built by `Insert(10.1.0.0/16)`, for the rule
`10.0.0.0/8`, an interior node: the `List` gets shorter. -/
theorem C19_delete_unstored_witness :
    (((runOps [Op.insert 167837696 16] blackNode.new).DeleteRule 167772160 8).List
        [] 0 32).length <
      ((runOps [Op.insert 167837696 16] blackNode.new).List [] 0 32).length :=
  (C19_delete_unstored [Op.insert 167837696 16] 167772160 8 (by decide) (by decide)
    (by decide) (by decide!)).2.2
    (insertPath [false, false, false, false, false, false, false, true] blackNode.new) rfl
    (Or.inl (fun h => Option.noConfusion h))

/-! ## The order of List -/

theorem pathLt_cons (b : Bool) (q q' : List Bool) : pathLt (b :: q) (b :: q') = pathLt q q' := by
  simp [pathLt]

theorem terminals_pairwise :
    ∀ t : blackNode, (terminals t).Pairwise (fun e f => pathLt e.1 f.1 = true) := by
  intro t
  induction t using blackNode.ind with
  | h l r d c hl hr =>
    have hL : (terminals (l.getD blackNode.new)).Pairwise (fun e f => pathLt e.1 f.1 = true) := by
      cases l with
      | none => simp [terminals_new]
      | some x => exact hl x rfl
    have hR : (terminals (r.getD blackNode.new)).Pairwise (fun e f => pathLt e.1 f.1 = true) := by
      cases r with
      | none => simp [terminals_new]
      | some x => exact hr x rfl
    rw [terminals_mk]
    refine List.pairwise_append.mpr ⟨List.pairwise_append.mpr ⟨?_, ?_, ?_⟩, ?_, ?_⟩
    · cases d <;> simp
    · rw [List.pairwise_map]
      exact hL.imp (fun {a b} h => by rw [pathLt_cons]; exact h)
    · intro e he f hf
      cases d
      · simp at he
      · simp only [if_true, List.mem_singleton] at he
        subst he
        obtain ⟨f', _, rfl⟩ := List.mem_map.mp hf
        rfl
    · rw [List.pairwise_map]
      exact hR.imp (fun {a b} h => by rw [pathLt_cons]; exact h)
    · intro e he f hf
      obtain ⟨f', _, rfl⟩ := List.mem_map.mp hf
      rcases List.mem_append.mp he with he | he
      · cases d
        · simp at he
        · simp only [if_true, List.mem_singleton] at he
          subst he
          rfl
      · obtain ⟨e', _, rfl⟩ := List.mem_map.mp he
        rfl

theorem padVal_nil (n : Nat) : padVal n [] = 0 := by
  simp [padVal, pathVal]

theorem padVal_cons (n : Nat) (b : Bool) (q : List Bool) (h : q.length ≤ n) :
    padVal (n + 1) (b :: q) = b.toNat * 2 ^ n + padVal n q := by
  unfold padVal
  rw [pathVal_cons, pathVal_acc]
  have e : n + 1 - (b :: q).length = n - q.length := by simp
  have hpow : (2 : Nat) ^ n = 2 ^ q.length * 2 ^ (n - q.length) := by
    rw [← Nat.pow_add]; congr 1; omega
  rw [e, hpow]
  ring

theorem padVal_lt (n : Nat) (q : List Bool) (h : q.length ≤ n) : padVal n q < 2 ^ n := by
  unfold padVal
  have h1 : pathVal 0 q * 2 ^ (n - q.length) < 2 ^ q.length * 2 ^ (n - q.length) :=
    Nat.mul_lt_mul_of_pos_right (pathVal_lt q) (Nat.pow_pos (by norm_num))
  have h2 : 2 ^ q.length * 2 ^ (n - q.length) = 2 ^ n := by
    rw [← Nat.pow_add]; congr 1; omega
  rw [h2] at h1
  exact h1

theorem padVal_of_pathLt (q : List Bool) :
    ∀ (q' : List Bool) (n : Nat), pathLt q q' = true → q.length ≤ n → q'.length ≤ n →
      padVal n q < padVal n q' ∨ (padVal n q = padVal n q' ∧ q.length < q'.length) := by
  induction q with
  | nil =>
    intro q' n h _ _
    rcases q' with _ | ⟨b', q'⟩
    · simp [pathLt] at h
    · rw [padVal_nil]
      rcases Nat.eq_zero_or_pos (padVal n (b' :: q')) with h0 | h0
      · exact Or.inr ⟨h0.symm, by simp⟩
      · exact Or.inl h0
  | cons b q ih =>
    intro q' n h hq hq'
    rcases q' with _ | ⟨b', q'⟩
    · simp [pathLt] at h
    · simp only [List.length_cons] at hq hq'
      obtain ⟨m, rfl⟩ : ∃ m, n = m + 1 := ⟨n - 1, by omega⟩
      rw [padVal_cons m b q (by omega), padVal_cons m b' q' (by omega)]
      have h1 := padVal_lt m q (by omega)
      have h2 := padVal_lt m q' (by omega)
      by_cases hb : b = b'
      · subst hb
        rw [pathLt_cons] at h
        rcases ih q' m h (by omega) (by omega) with k | ⟨k1, k2⟩
        · exact Or.inl (by omega)
        · exact Or.inr ⟨by omega, by simp only [List.length_cons]; omega⟩
      · cases b <;> cases b'
        · exact absurd rfl hb
        · simp only [Bool.toNat_false, Bool.toNat_true]
          exact Or.inl (by omega)
        · simp [pathLt] at h
        · exact absurd rfl hb

theorem pathAddr_eq_padVal (q : List Bool) : pathAddr q = padVal 32 q := pathAddr_eq q

theorem entryLt_of_pathLt (q q' : List Bool) (c c' : Nat) (hq : q.length ≤ 32)
    (hq' : q'.length ≤ 32) (h : pathLt q q' = true) :
    entryLt (listEntry 0 32 q c) (listEntry 0 32 q' c') = true := by
  rw [entry_of_path q c hq, entry_of_path q' c' hq']
  unfold entryLt
  simp only [ip2int_int2ip _ (pathAddr_lt q hq), ip2int_int2ip _ (pathAddr_lt q' hq'),
    decide_eq_true_eq]
  rw [pathAddr_eq_padVal, pathAddr_eq_padVal]
  exact padVal_of_pathLt q q' 32 h hq hq'

theorem entryLt_irrefl_key (e f : blackInfo) (h : entryLt e f = true) :
    (e.Addr, e.Mask) ≠ (f.Addr, f.Mask) := by
  intro heq
  simp only [Prod.mk.injEq] at heq
  unfold entryLt at h
  rw [heq.1, heq.2] at h
  cases hv : ip2int f.Addr with
  | none => rw [hv] at h; simp at h
  | some v =>
    rw [hv] at h
    simp at h

/-- C20. List is strictly ordered: for every trie of depth at most 32, in
`List(nil, 0, 32)` every entry is smaller than every later entry in the
lexicographic order on (numeric value of the address, mask length), and no
(address, mask) pair appears twice. -/
theorem C20_list_strictly_ordered (t : blackNode) (hd : depthLe 32 t) :
    (t.List [] 0 32).Pairwise (fun e f => entryLt e f = true) ∧
    ((t.List [] 0 32).map (fun e => (e.Addr, e.Mask))).Nodup := by
  have hp : (t.List [] 0 32).Pairwise (fun e f => entryLt e f = true) := by
    rw [List_eq_terminals, List.nil_append, List.pairwise_map]
    refine (terminals_pairwise t).imp_of_mem ?_
    intro a b ha hb h
    exact entryLt_of_pathLt a.1 b.1 a.2 b.2 (terminals_length_le 32 t hd a ha)
      (terminals_length_le 32 t hd b hb) h
  refine ⟨hp, ?_⟩
  unfold List.Nodup
  rw [List.pairwise_map]
  exact hp.imp (fun {a b} h => entryLt_irrefl_key a b h)

/-- C20 on the trie holding `192.168.0.0/16`, `10.1.0.0/16` and `10.0.0.0/8`,
inserted in that order. -/
theorem C20_list_strictly_ordered_witness :
    ((insertAll [(3232235520, 16), (167837696, 16), (167772160, 8)]
        blackNode.new).List [] 0 32).Pairwise (fun e f => entryLt e f = true) :=
  (C20_list_strictly_ordered
    (insertAll [(3232235520, 16), (167837696, 16), (167772160, 8)] blackNode.new)
    (depthLe_runOps [Op.insert 3232235520 16, Op.insert 167837696 16, Op.insert 167772160 8]
      blackNode.new (by decide) (depthLe_new 32))).1

/-! ## Parsing never reports an error -/

theorem digit_le (c : Char) (h : c.isDigit = true) : c.toNat - 48 ≤ 9 := by
  simp only [Char.isDigit, Bool.and_eq_true, decide_eq_true_eq] at h
  have h2 : c.val.toNat ≤ 57 := h.2
  show c.val.toNat - 48 ≤ 9
  omega

theorem digit_not_sign (c : Char) (h : c.isDigit = true) : c ≠ '-' ∧ c ≠ '+' := by
  constructor
  · rintro rfl; exact absurd h (by decide)
  · rintro rfl; exact absurd h (by decide)

theorem foldl_digits_ge (ds : List Char) :
    ∀ n : Nat, n ≤ ds.foldl (fun n c => n * 10 + (c.toNat - 48)) n := by
  induction ds with
  | nil => intro n; exact Nat.le_refl n
  | cons c cs ih =>
    intro n
    have := ih (n * 10 + (c.toNat - 48))
    simp only [List.foldl_cons]
    omega

theorem parseUintLoop_digits (ds : List Char) :
    ∀ n : Nat, ds.all Char.isDigit = true →
      ds.foldl (fun n c => n * 10 + (c.toNat - 48)) n < 2 ^ 64 →
      parseUintLoop n ds = some (ds.foldl (fun n c => n * 10 + (c.toNat - 48)) n) := by
  induction ds with
  | nil => intro n _ _; rfl
  | cons c cs ih =>
    intro n hall hlt
    simp only [List.all_cons, Bool.and_eq_true] at hall
    simp only [List.foldl_cons] at hlt ⊢
    have hge := foldl_digits_ge cs (n * 10 + (c.toNat - 48))
    have h1 : ¬ 1844674407370955162 ≤ n := by omega
    have h2 : ¬ 2 ^ 64 ≤ n * 10 + (c.toNat - 48) := by omega
    simp only [parseUintLoop, hall.1, Bool.not_true, Bool.false_eq_true, if_false, if_neg h1,
      if_neg h2]
    exact ih _ hall.2 hlt

theorem parseUintLoop_syntax (s : List Char) :
    ∀ k n : Nat, n < 10 ^ k → k + s.length ≤ 18 → s.all Char.isDigit = false →
      parseUintLoop n s = none := by
  induction s with
  | nil => intro k n _ _ h; simp at h
  | cons c cs ih =>
    intro k n hn hk hall
    simp only [List.length_cons] at hk
    cases hc : c.isDigit with
    | false => simp [parseUintLoop, hc]
    | true =>
      have hcs : cs.all Char.isDigit = false := by
        simpa [List.all_cons, hc] using hall
      have hd := digit_le c hc
      have hk17 : (10 : Nat) ^ k ≤ 10 ^ 17 := Nat.pow_le_pow_right (by norm_num) (by omega)
      have hpow : (10 : Nat) ^ (k + 1) = 10 ^ k * 10 := Nat.pow_succ 10 k
      have h1 : ¬ 1844674407370955162 ≤ n := by norm_num at hk17; omega
      have h2 : ¬ 2 ^ 64 ≤ n * 10 + (c.toNat - 48) := by norm_num at hk17 ⊢; omega
      simp only [parseUintLoop, hc, Bool.not_true, Bool.false_eq_true, if_false, if_neg h1,
        if_neg h2]
      exact ih (k + 1) _ (by rw [hpow]; omega) (by omega) hcs

theorem lenient_lt (s : List Char) (h : plainField s = true) : lenient s < 2 ^ 63 := by
  unfold lenient
  cases hd : decimal s with
  | false => simp
  | true =>
    simp only [plainField, hd, Bool.true_and, Bool.not_true, Bool.false_and, Bool.or_false,
      decide_eq_true_eq] at h
    simpa using h

theorem Atoi_plain (s : List Char) (h : plainField s = true) : Atoi s = (lenient s : Int) := by
  cases hd : decimal s with
  | true =>
    have hlt : digitsVal s < 2 ^ 63 := by
      simp only [plainField, hd, Bool.true_and, Bool.not_true, Bool.false_and, Bool.or_false,
        decide_eq_true_eq] at h
      exact h
    rcases s with _ | ⟨c, cs⟩
    · simp [decimal] at hd
    · have hall : (c :: cs).all Char.isDigit = true := by
        simpa [decimal] using hd
      have hc : c.isDigit = true := by
        simp only [List.all_cons, Bool.and_eq_true] at hall
        exact hall.1
      obtain ⟨hm, hp⟩ := digit_not_sign c hc
      have hloop : parseUintLoop 0 (c :: cs) = some (digitsVal (c :: cs)) :=
        parseUintLoop_digits (c :: cs) 0 hall (lt_trans hlt (by norm_num))
      have hnot : ¬ 2 ^ 63 ≤ digitsVal (c :: cs) := by omega
      simp only [Atoi, splitSign, if_neg hm, if_neg hp, List.isEmpty_cons, Bool.false_eq_true,
        if_false, hloop, lenient, hd, if_true]
      rw [if_neg hnot]
  | false =>
    have hrest : s.length < 19 ∧ noSign s = true := by
      simp only [plainField, hd, Bool.false_and, Bool.not_false, Bool.true_and,
        Bool.false_or, Bool.and_eq_true, decide_eq_true_eq] at h
      exact h
    rcases s with _ | ⟨c, cs⟩
    · simp [Atoi, splitSign, lenient, decimal]
    · have hm : c ≠ '-' := by
        intro e; subst e; simp [noSign] at hrest
      have hp : c ≠ '+' := by
        intro e; subst e; simp [noSign] at hrest
      have hall : (c :: cs).all Char.isDigit = false := by
        simpa [decimal] using hd
      have hloop := parseUintLoop_syntax (c :: cs) 0 0 (by norm_num) (by omega) hall
      simp only [Atoi, splitSign, if_neg hm, if_neg hp, List.isEmpty_cons, Bool.false_eq_true,
        if_false, hloop, lenient, hd]
      rfl

theorem toU64_plain (s : List Char) (h : plainField s = true) :
    toU64 (Atoi s) = lenient s := by
  have hlt := lenient_lt s h
  rw [Atoi_plain s h]
  unfold toU64
  omega

theorem Split_joinFields :
    ∀ fs : List (List Char), fs ≠ [] → (∀ f ∈ fs, '.' ∉ f) →
      Split '.' (joinFields fs) = fs := by
  intro fs
  induction fs with
  | nil => intro h _; exact absurd rfl h
  | cons f tl ih =>
    intro _ hf
    rcases tl with _ | ⟨g, tl⟩
    · exact Split_no_sep _ _ (hf f (List.mem_cons_self _ _))
    · have e : joinFields (f :: g :: tl) = f ++ '.' :: joinFields (g :: tl) := rfl
      rw [e, Split_append _ _ _ (hf f (List.mem_cons_self _ _)),
        ih (by simp) (fun x hx => hf x (List.mem_cons_of_mem _ hx))]

theorem slash_not_mem_joinFields :
    ∀ fs : List (List Char), (∀ f ∈ fs, '/' ∉ f) → '/' ∉ joinFields fs := by
  intro fs
  induction fs with
  | nil => intro _ h; cases h
  | cons f tl ih =>
    intro hf
    rcases tl with _ | ⟨g, tl⟩
    · exact hf f (List.mem_cons_self _ _)
    · have e : joinFields (f :: g :: tl) = f ++ '.' :: joinFields (g :: tl) := rfl
      rw [e]
      simp only [List.mem_append, List.mem_cons, not_or]
      exact ⟨hf f (List.mem_cons_self _ _), by decide,
        ih (fun x hx => hf x (List.mem_cons_of_mem _ hx))⟩

theorem ip2int_joinFields (f0 f1 f2 f3 : List Char) (rest : List (List Char))
    (hsep : ∀ f ∈ f0 :: f1 :: f2 :: f3 :: rest, '.' ∉ f)
    (h0 : plainField f0 = true) (h1 : plainField f1 = true) (h2 : plainField f2 = true)
    (h3 : plainField f3 = true) :
    ip2int (String.mk (joinFields (f0 :: f1 :: f2 :: f3 :: rest))) =
      some ((lenient f0 * 2 ^ 24 + lenient f1 * 2 ^ 16 + lenient f2 * 2 ^ 8 + lenient f3)
        % 2 ^ 64) := by
  have hs := Split_joinFields (f0 :: f1 :: f2 :: f3 :: rest) (by simp) hsep
  have e : (String.mk (joinFields (f0 :: f1 :: f2 :: f3 :: rest))).toList =
      joinFields (f0 :: f1 :: f2 :: f3 :: rest) := rfl
  unfold ip2int
  rw [e, hs]
  simp only [toU64_plain f0 h0, toU64_plain f1 h1, toU64_plain f2 h2, toU64_plain f3 h3, shlU,
    show ¬ 64 ≤ 24 by norm_num, show ¬ 64 ≤ 16 by norm_num, show ¬ 64 ≤ 8 by norm_num,
    if_false, Nat.shiftLeft_eq, Option.some.injEq]
  norm_num

/-- The error cases of `Atoi`: a range error met before a character that is
not a digit gives the clamped bound, a syntax error met first gives 0. -/
theorem Atoi_error_values :
    Atoi "99999999999999999999x".toList = 2 ^ 63 - 1 ∧
    Atoi "-99999999999999999999x".toList = -(2 ^ 63) ∧
    Atoi "1844674407370955161x".toList = 0 ∧
    Atoi "9223372036854775808".toList = 2 ^ 63 - 1 ∧
    Atoi "-9223372036854775808".toList = -(2 ^ 63) ∧
    Atoi "12a".toList = 0 ∧ Atoi "+".toList = 0 ∧ Atoi "".toList = 0 ∧
    Atoi "-5".toList = -5 ∧ Atoi "+007".toList = 7 := by
  decide

/-- C10, as stated, fails: `ip2intbit` returns a value for a text with an
octet above 255, an octet that is not a number and the prefix length 33, and
`Insert` of that text changes the empty trie. -/
theorem C10_invalid_text_accepted :
    ip2intbit "999.x.3.4/33" = some (16760439556, 33) ∧
    (blackNode.new.Insert "999.x.3.4/33").map (fun t => t.List [] 0 32) =
      some [⟨"0.0.0.0", 33, 0⟩] :=
  ⟨rfl, by decide!⟩

/-- C10, amended. `ip2intbit` has no error result: it returns a pair for
every text whose address part has at least four `.`-separated fields.  For a
text made of four or more fields without `.` and `/`, the first four of them
plain, with or without a `/` and a plain suffix: a field that is an unsigned
decimal integer below `2^63` counts as it is, with no `[0,255]` check, a field
of fewer than 19 characters that is not one (and has no leading sign) counts as
0, further fields are ignored; the address is
`(b0<<24 + b1<<16 + b2<<8 + b3) mod 2^64`, the prefix length is 32 without `/`
and the number of the suffix otherwise, with no `[0,32]` check; and when that
prefix length is at most 32, `Insert` and `Delete` run with this pair. -/
theorem C10_parse_accepts :
    (∀ ip : String, 4 ≤ (addrFields ip).length → (ip2intbit ip).isSome = true) ∧
    (∀ (f0 f1 f2 f3 : List Char) (rest : List (List Char)) (g : List Char),
      (∀ f ∈ f0 :: f1 :: f2 :: f3 :: rest, '.' ∉ f ∧ '/' ∉ f) →
      plainField f0 = true → plainField f1 = true → plainField f2 = true →
      plainField f3 = true → plainField g = true →
      ip2intbit (String.mk (joinFields (f0 :: f1 :: f2 :: f3 :: rest))) =
        some ((lenient f0 * 2 ^ 24 + lenient f1 * 2 ^ 16 + lenient f2 * 2 ^ 8 + lenient f3)
          % 2 ^ 64, 32) ∧
      ip2intbit (String.mk (joinFields (f0 :: f1 :: f2 :: f3 :: rest) ++ '/' :: g)) =
        some ((lenient f0 * 2 ^ 24 + lenient f1 * 2 ^ 16 + lenient f2 * 2 ^ 8 + lenient f3)
          % 2 ^ 64, lenient g) ∧
      (lenient g ≤ 32 → ∀ t : blackNode,
        t.Insert (String.mk (joinFields (f0 :: f1 :: f2 :: f3 :: rest) ++ '/' :: g)) =
          some (t.InsertRule
            ((lenient f0 * 2 ^ 24 + lenient f1 * 2 ^ 16 + lenient f2 * 2 ^ 8 + lenient f3)
              % 2 ^ 64) (lenient g)) ∧
        t.Delete (String.mk (joinFields (f0 :: f1 :: f2 :: f3 :: rest) ++ '/' :: g)) =
          some (t.DeleteRule
            ((lenient f0 * 2 ^ 24 + lenient f1 * 2 ^ 16 + lenient f2 * 2 ^ 8 + lenient f3)
              % 2 ^ 64) (lenient g)))) := by
  refine ⟨?_, ?_⟩
  · intro ip h
    unfold addrFields at h
    unfold ip2intbit
    cases hc : cutSlash ip.toList with
    | none =>
      rw [hc] at h
      dsimp only at h
      rcases hl : Split '.' ip.toList with _ | ⟨s0, _ | ⟨s1, _ | ⟨s2, _ | ⟨s3, tl⟩⟩⟩⟩ <;>
        rw [hl] at h <;> simp at h
      have hl' : Split '.' ip.data = s0 :: s1 :: s2 :: s3 :: tl := hl
      simp [ip2int, hl']
    | some pr =>
      obtain ⟨addr, suffix⟩ := pr
      rw [hc] at h
      dsimp only at h
      rcases hl : Split '.' addr with _ | ⟨s0, _ | ⟨s1, _ | ⟨s2, _ | ⟨s3, tl⟩⟩⟩⟩ <;>
        rw [hl] at h <;> simp at h
      simp [ip2int, String.toList, hl]
  · intro f0 f1 f2 f3 rest g hsep h0 h1 h2 h3 hg
    have hv := ip2int_joinFields f0 f1 f2 f3 rest (fun f hf => (hsep f hf).1) h0 h1 h2 h3
    have hsl := slash_not_mem_joinFields (f0 :: f1 :: f2 :: f3 :: rest)
      (fun f hf => (hsep f hf).2)
    have hp1 : ip2intbit (String.mk (joinFields (f0 :: f1 :: f2 :: f3 :: rest))) =
        some ((lenient f0 * 2 ^ 24 + lenient f1 * 2 ^ 16 + lenient f2 * 2 ^ 8 + lenient f3)
          % 2 ^ 64, 32) := by
      unfold ip2intbit
      have e : (String.mk (joinFields (f0 :: f1 :: f2 :: f3 :: rest))).toList =
          joinFields (f0 :: f1 :: f2 :: f3 :: rest) := rfl
      rw [e, cutSlash_none _ hsl]
      simp only [hv, Option.map_some']
    have hp2 : ip2intbit
        (String.mk (joinFields (f0 :: f1 :: f2 :: f3 :: rest) ++ '/' :: g)) =
        some ((lenient f0 * 2 ^ 24 + lenient f1 * 2 ^ 16 + lenient f2 * 2 ^ 8 + lenient f3)
          % 2 ^ 64, lenient g) := by
      unfold ip2intbit
      have e : (String.mk (joinFields (f0 :: f1 :: f2 :: f3 :: rest) ++ '/' :: g)).toList =
          joinFields (f0 :: f1 :: f2 :: f3 :: rest) ++ '/' :: g := rfl
      rw [e, cutSlash_append _ _ hsl]
      simp only [hv, Option.map_some', toU64_plain g hg]
    refine ⟨hp1, hp2, ?_⟩
    intro _ t
    constructor
    · unfold blackNode.Insert; rw [hp2]; rfl
    · unfold blackNode.Delete; rw [hp2]; rfl

/-- C10, amended, at the text `999.x.3.4.7/32`: an octet above 255, an octet
that is not a number and a fifth field. -/
theorem C10_parse_accepts_witness :
    ip2intbit "999.x.3.4.7" = some (16760439556, 32) ∧
    ip2intbit "999.x.3.4.7/32" = some (16760439556, 32) ∧
    blackNode.new.Insert "999.x.3.4.7/32" =
      some (blackNode.new.InsertRule 16760439556 32) :=
  have h := C10_parse_accepts.2 ['9', '9', '9'] ['x'] ['3'] ['4'] [['7']] ['3', '2']
    (by decide) (by decide) (by decide) (by decide) (by decide) (by decide)
  ⟨h.1, h.2.1, (h.2.2 (by decide) blackNode.new).1⟩

